import Mathlib

/-!
# Matrix exponential (`op_expmat`) — shallow embedding

Embedding of `include/armadillo_bits/op_expmat_meat.hpp`
(`op_expmat::apply` and `op_expmat::apply_direct`).

* The element type `eT` and its pod type `T` are one linearly ordered field `K`
  (the real case, arithmetic without rounding).
* A `Mat K` carries its run-time dimensions, so non-square and empty matrices
  are values of the type.
* Library routines used by the file but defined elsewhere (`std::exp`,
  `eop_aux::log2`, `std::frexp`, the element finiteness test, `solve`, and the
  width of `uword`) are the fields of `Prims`.
* `arma_debug_check` (debug checks compiled in) and `arma_stop_runtime_error` end a call
  with an `Err`.
* Every run records the numerical steps it performed, in order, in `Run.steps`.
-/

namespace Expmat

/-! ## Data model -/

/-- Dense matrix with run-time dimensions (`Mat<eT>`). -/
structure Mat (K : Type) where
  n_rows : Nat
  n_cols : Nat
  mem : Matrix (Fin n_rows) (Fin n_cols) K

/-- A matrix value of known dimensions, as a `Mat`. -/
def Mat.ofMatrix {K : Type} {r c : Nat} (M : Matrix (Fin r) (Fin c) K) : Mat K :=
  ⟨r, c, M⟩

/-- The state after `Mat::reset()`: a matrix with no rows and no columns. -/
def Mat.reset {K : Type} [Zero K] (_m : Mat K) : Mat K :=
  ⟨0, 0, 0⟩

/-- The elements of a matrix whose dimensions are known to agree, indexed by its row count. -/
def Mat.square_mem {K : Type} (m : Mat K) (h : m.n_rows = m.n_cols) :
    Matrix (Fin m.n_rows) (Fin m.n_rows) K :=
  m.mem.submatrix id (Fin.cast h)

/-- Squareness test `Mat::is_square()`. -/
def Mat.is_square {K : Type} (m : Mat K) : Bool :=
  m.n_rows == m.n_cols

/-- The two exception kinds raised by the file: `arma_debug_check` raises a logic error,
`arma_stop_runtime_error` a runtime error. -/
inductive Err where
  | logic_error (msg : String)
  | runtime_error (msg : String)
  deriving DecidableEq, Repr

/-- Numerical steps a call can perform, recorded in execution order. -/
inductive Step where
  | norm
  | scale
  | scalar_exp
  | pade_init
  | accumulate
  | finite_check
  | solve
  | square
  deriving DecidableEq, Repr

/-- What `solve(out, D, E)` leaves behind: the solution on success, or whatever it left in
`out` together with a `false` status. -/
inductive SolveResult (K : Type) (N : Nat) where
  | solved (R : Matrix (Fin N) (Fin N) K)
  | failed (left : Mat K)

/-- Routines and constants the file uses but does not define. -/
structure Prims (K : Type) where
  /-- Scalar exponential `std::exp`. -/
  exp : K → K
  /-- Base-2 logarithm `eop_aux::log2`. -/
  log2 : K → K
  /-- Exponent written by `std::frexp(x, &exponent)`. -/
  frexp : K → Int
  /-- Element test behind `Mat::is_finite()`. -/
  is_finite : K → Bool
  /-- Linear solver `solve(out, D, E)`. -/
  solve : {N : Nat} → Mat K → Matrix (Fin N) (Fin N) K → Matrix (Fin N) (Fin N) K →
    SolveResult K N
  /-- Width in bits of the unsigned index type `uword`. -/
  uword_bits : Nat

/-- An input expression `Base<eT,T1>`: the compile-time tag `is_op_diagmat<T1>::value` and the
matrix `get_ref()` evaluates to. -/
structure Base (K : Type) where
  is_op_diagmat : Bool
  get_ref : Mat K

/-- Final state of a call of `apply_direct`: the contents of `out`, the returned status or the
exception, and the numerical steps performed. -/
structure Run (K : Type) where
  out : Mat K
  ret : Except Err Bool
  steps : List Step

/-- Final state of a call of `apply` (which returns `void`). -/
structure RunApply (K : Type) where
  out : Mat K
  ret : Except Err Unit
  steps : List Step

/-! ## Unsigned index arithmetic -/

/-- Reduction of a natural number to a `uword` of `w` bits. -/
def uword_wrap (w n : Nat) : Nat :=
  n % 2 ^ w

/-- Wrapping `uword` subtraction. -/
def uword_sub (w a b : Nat) : Nat :=
  (uword_wrap w a + (2 ^ w - uword_wrap w b)) % 2 ^ w

/-- Wrapping `uword` addition. -/
def uword_add (w a b : Nat) : Nat :=
  uword_wrap w (a + b)

/-- Wrapping `uword` multiplication. -/
def uword_mul (w a b : Nat) : Nat :=
  uword_wrap w (a * b)

/-! ## Operations -/

section Ops

variable {K : Type} [LinearOrderedField K]

/-- Modelled from the spec: `arma::norm(A, "inf")`, which is not in the file — the maximum,
over rows, of the sum of absolute values of that row's entries (zero for an empty matrix). -/
def norm_inf {N : Nat} (A : Matrix (Fin N) (Fin N) K) : K :=
  (List.finRange N).foldl (fun acc i => max acc (∑ j, |A i j|)) 0

/-- Matrix test `Mat::is_finite()`: every element passes the element test. -/
def mat_is_finite (P : Prims K) {N : Nat} (M : Matrix (Fin N) (Fin N) K) : Bool :=
  decide (∀ i j, P.is_finite (M i j) = true)

/-- Unchecked element read `out.at(i,i)` on a matrix of known dimensions. -/
def at_diag {r c : Nat} (M : Matrix (Fin r) (Fin c) K) (i : Nat) : K :=
  if h : i < r ∧ i < c then M ⟨i, h.1⟩ ⟨i, h.2⟩ else 0

/-- One iteration of the diagonal loop: `out.at(i,i) = std::exp( out.at(i,i) )`. -/
def exp_diag_step (exp : K → K) {r c : Nat} (M : Matrix (Fin r) (Fin c) K) (i : Nat) :
    Matrix (Fin r) (Fin c) K :=
  fun a b => if a.val = i ∧ b.val = i then exp (at_diag M i) else M a b

/-- The diagonal loop `for(uword i=0; i<N; ++i)`. -/
def exp_diag_loop (exp : K → K) {r c : Nat} (M : Matrix (Fin r) (Fin c) K) (N : Nat) :
    Matrix (Fin r) (Fin c) K :=
  (List.range N).foldl (exp_diag_step exp) M

/-- Scale exponent `s` selected from the norm (lines 72–76). -/
def scale_exponent (P : Prims K) (norm_val : K) : Nat :=
  let log2_val : K := if norm_val > 0 then P.log2 norm_val else 0
  let exponent : Int := P.frexp log2_val
  Int.toNat (max 0 (exponent + 1))

/-- Loop state of the Padé accumulation. -/
structure PadeState (ι : Type) (K : Type) where
  c : K
  X : Matrix ι ι K
  E : Matrix ι ι K
  D : Matrix ι ι K
  positive : Bool

/-- Degree of the Padé approximant, `const uword N = 6`. -/
def pade_N : Nat := 6

/-- Coefficient update `c * T(N - i + 1) / T(i * (2*N - i + 1))` in `uword` arithmetic. -/
def pade_coeff (w : Nat) (c : K) (i : Nat) : K :=
  c * ((uword_add w (uword_sub w pade_N i) 1 : Nat) : K)
    / ((uword_mul w i (uword_add w (uword_sub w (uword_mul w 2 pade_N) i) 1) : Nat) : K)

/-- State before the loop (lines 80–87). -/
def pade_init {ι : Type} [Fintype ι] [DecidableEq ι] (A : Matrix ι ι K) : PadeState ι K :=
  let c : K := 1 / 2
  { c := c, X := A, E := 1 + c • A, D := 1 - c • A, positive := true }

/-- Body of the loop (lines 93–101). -/
def pade_step {ι : Type} [Fintype ι] [DecidableEq ι] (w : Nat) (A : Matrix ι ι K)
    (st : PadeState ι K) (i : Nat) : PadeState ι K :=
  let c := pade_coeff w st.c i
  let X := A * st.X
  let E := st.E + c • X
  let D := if st.positive then st.D + c • X else st.D - c • X
  { c := c, X := X, E := E, D := D, positive := if st.positive then false else true }

/-- The accumulation `for(uword i = 2; i <= N; ++i)`. -/
def pade {ι : Type} [Fintype ι] [DecidableEq ι] (w : Nat) (A : Matrix ι ι K) : PadeState ι K :=
  (List.range' 2 (pade_N + 1 - 2)).foldl (pade_step w A) (pade_init A)

/-- The squaring loop `for(uword i=0; i < s; ++i)  { out = out * out; }`. -/
def square_loop {ι : Type} [Fintype ι] (s : Nat) (R : Matrix ι ι K) : Matrix ι ι K :=
  (List.range s).foldl (fun out _ => out * out) R

/-- The general branch of `apply_direct` after the squareness check (lines 70–110). -/
def apply_general (P : Prims K) (out : Mat K) {N : Nat} (A0 : Matrix (Fin N) (Fin N) K) :
    Run K :=
  let norm_val := norm_inf A0
  let s := scale_exponent P norm_val
  let A : Matrix (Fin N) (Fin N) K := A0.map (fun x => x / (2 : K) ^ s)
  let st := pade P.uword_bits A
  let pre : List Step :=
    [Step.norm, Step.scale, Step.pade_init] ++ List.replicate (pade_N + 1 - 2) Step.accumulate
      ++ [Step.finite_check]
  if mat_is_finite P st.D = false || mat_is_finite P st.E = false then
    { out := out, ret := .ok false, steps := pre }
  else
    match P.solve out st.D st.E with
    | .failed left => { out := left, ret := .ok false, steps := pre ++ [Step.solve] }
    | .solved R =>
      { out := Mat.ofMatrix (square_loop s R), ret := .ok true,
        steps := pre ++ [Step.solve] ++ List.replicate s Step.square }

/-- Message of the squareness check. -/
def msg_square : String := "expmat(): given matrix must be square sized"

/-- Message raised by `apply` on a `false` status. -/
def msg_ill : String := "expmat(): given matrix appears ill-conditioned"

/-- The function `op_expmat::apply_direct(out, expr)`. -/
def apply_direct (P : Prims K) (out : Mat K) (expr : Base K) : Run K :=
  if expr.is_op_diagmat then
    let out := expr.get_ref
    if out.is_square = false then
      { out := out, ret := .error (.logic_error msg_square), steps := [] }
    else
      let N := min out.n_rows out.n_cols
      { out := ⟨out.n_rows, out.n_cols, exp_diag_loop P.exp out.mem N⟩, ret := .ok true,
        steps := List.replicate N Step.scalar_exp }
  else
    let A := expr.get_ref
    if h : A.n_rows = A.n_cols then
      apply_general P out (A.square_mem h)
    else
      { out := out, ret := .error (.logic_error msg_square), steps := [] }

/-- The function `op_expmat::apply(out, expr)`. -/
def apply (P : Prims K) (out : Mat K) (expr : Base K) : RunApply K :=
  let r := apply_direct P out expr
  match r.ret with
  | .error e => { out := r.out, ret := .error e, steps := r.steps }
  | .ok status =>
    if status = false then
      { out := r.out.reset, ret := .error (.runtime_error msg_ill), steps := r.steps }
    else
      { out := r.out, ret := .ok (), steps := r.steps }

/-! ## Names for intermediate values of the general branch -/

/-- Scale exponent the general branch selects for the input `A0`. -/
def scale_of (P : Prims K) {N : Nat} (A0 : Matrix (Fin N) (Fin N) K) : Nat :=
  scale_exponent P (norm_inf A0)

/-- Loop state the general branch reaches for the input `A0`: its fields `D` and `E` are the
matrices tested for finiteness and passed to the solver. -/
def accumulated (P : Prims K) {N : Nat} (A0 : Matrix (Fin N) (Fin N) K) :
    PadeState (Fin N) K :=
  pade P.uword_bits (A0.map (fun x => x / (2 : K) ^ scale_of P A0))

/-- Value of the coefficient `c` during iteration `i` of the accumulation (`i = 1` is the
value before the loop; index `0` stands for the identity term). -/
def pade_c (w : Nat) : Nat → K
  | 0 => 1
  | 1 => 1 / 2
  | (i + 2) => pade_coeff w (pade_c w (i + 1)) (i + 2)

/-- The polynomial accumulated in `E`, evaluated at a scalar. -/
def pade_E_poly (w : Nat) (x : K) : K :=
  ∑ j in Finset.range (pade_N + 1), pade_c w j * x ^ j

/-- The polynomial accumulated in `D`, evaluated at a scalar. -/
def pade_D_poly (w : Nat) (x : K) : K :=
  ∑ j in Finset.range (pade_N + 1), (-1) ^ j * pade_c w j * x ^ j

/-- The scalar the general branch produces from a scalar `k` at scale exponent `s`: the
quotient of the two polynomials at `k / 2^s`, squared `s` times. -/
def pade_value (w : Nat) (s : Nat) (k : K) : K :=
  (pade_E_poly w (k / 2 ^ s) / pade_D_poly w (k / 2 ^ s)) ^ 2 ^ s

/-- Block-diagonal matrix with diagonal blocks `A1` and `A2`. -/
def blockdiag {n m : Nat} (A1 : Matrix (Fin n) (Fin n) K) (A2 : Matrix (Fin m) (Fin m) K) :
    Matrix (Fin (n + m)) (Fin (n + m)) K :=
  Matrix.reindex finSumFinEquiv finSumFinEquiv (Matrix.fromBlocks A1 0 0 A2)

/-- The input takes the general branch, is square, and either the accumulated `D` or `E` has
a non-finite element or the solver reports failure on them. -/
def numerical_failure (P : Prims K) (out : Mat K) (expr : Base K) : Prop :=
  expr.is_op_diagmat = false ∧
    ∃ h : expr.get_ref.n_rows = expr.get_ref.n_cols,
      (∃ i j, P.is_finite ((accumulated P (expr.get_ref.square_mem h)).D i j) = false) ∨
      (∃ i j, P.is_finite ((accumulated P (expr.get_ref.square_mem h)).E i j) = false) ∨
      ∃ left, P.solve out (accumulated P (expr.get_ref.square_mem h)).D
        (accumulated P (expr.get_ref.square_mem h)).E = SolveResult.failed left

/-! ## Assumptions on the library routines -/

/-- Arithmetic without overflow: every element is finite. -/
def AllFinite (P : Prims K) : Prop :=
  ∀ x : K, P.is_finite x = true

/-- The solver returns the unique solution of `D·R = E` whenever `D` is invertible. -/
def SolvesInvertible (P : Prims K) : Prop :=
  ∀ (N : Nat) (out : Mat K) (D E : Matrix (Fin N) (Fin N) K),
    IsUnit D.det → P.solve out D E = SolveResult.solved (D⁻¹ * E)

/-- The solver reports failure whenever `D` is singular. -/
def FailsSingular (P : Prims K) : Prop :=
  ∀ (N : Nat) (out : Mat K) (D E : Matrix (Fin N) (Fin N) K),
    ¬ IsUnit D.det → ∃ left, P.solve out D E = SolveResult.failed left

/-- The solver's status and what it leaves in `out` are a function of `D` and `E` alone, not
of what `out` held before the call. -/
def SolverIgnoresOut (P : Prims K) : Prop :=
  ∀ (N : Nat) (out out' : Mat K) (D E : Matrix (Fin N) (Fin N) K),
    P.solve out D E = P.solve out' D E

/-- Loop state of the accumulation at the end of iteration `i` (`i = 1` is the state before
the loop, `i = 6` the state after it). -/
def pade_upto {ι : Type} [Fintype ι] [DecidableEq ι] (w : Nat) (A : Matrix ι ι K) (i : Nat) :
    PadeState ι K :=
  (List.range' 2 (i - 1)).foldl (pade_step w A) (pade_init A)

/-! ## Transpose and trace -/

/-- Modelled from the spec: `trace` is not among the source files; the test `fn_trace_1`
pins it down on a 5×6 matrix as the sum of the main-diagonal elements `A(i,i)` for
`i < min(n_rows, n_cols)`, here accumulated in index order. -/
def trace (A : Mat K) : K :=
  (List.range (min A.n_rows A.n_cols)).foldl (fun acc i => acc + at_diag A.mem i) 0

/-! ## Concrete library routines -/

/-- Exponent written by `std::frexp`: `0` for a zero argument, otherwise the integer `e` with
`2^(e-1) ≤ |x| < 2^e`. -/
def frexp_exponent [FloorRing K] (x : K) : Int :=
  if x = 0 then 0 else Int.log 2 |x| + 1

/-- Library routines in exact arithmetic, for a given scalar exponential, base-2 logarithm and
element finiteness test: a 64-bit `uword`, the exact `frexp` exponent, and a solver that
returns `D⁻¹·E` (as `det⁻¹ · adj(D) · E`) for invertible `D` and otherwise reports failure
leaving `out` reset. -/
def exactPrims [FloorRing K] (exp log2 : K → K) (is_finite : K → Bool) : Prims K where
  exp := exp
  log2 := log2
  frexp := frexp_exponent
  is_finite := is_finite
  solve := fun out D E =>
    if D.det = 0 then SolveResult.failed out.reset
    else SolveResult.solved ((D.det⁻¹ • D.adjugate) * E)
  uword_bits := 64

end Ops

/-- Exact real arithmetic: the real exponential and logarithm, every element finite. -/
noncomputable def realPrims : Prims ℝ :=
  exactPrims Real.exp (Real.logb 2) (fun _ => true)

/-- Largest finite double, `(2 - 2^-52)·2^1023`. -/
def dbl_max : ℚ := 2 ^ 1024 - 2 ^ 971

/-- Real arithmetic in which an element counts as finite when its magnitude does not exceed
the largest finite double. The test is applied to the exact values of `D` and `E`: an overflow
of an intermediate product whose contribution to `D` and `E` stays in range is not modelled,
so the instance can report finite where double arithmetic overflows. -/
noncomputable def doublePrims : Prims ℝ :=
  exactPrims Real.exp (Real.logb 2) (fun x => decide (|x| ≤ (dbl_max : ℝ)))

/-- Modelled from the spec: the simple transpose `Mat::st()` / `strans` is not among the
source files; the test `fn_trans_1` pins it down: the dimensions are swapped and element
`(j,i)` of the result is element `(i,j)` of the argument. -/
def Mat.st {K : Type} (A : Mat K) : Mat K :=
  ⟨A.n_cols, A.n_rows, A.mem.transpose⟩

/-- Modelled from the spec: the Hermitian transpose `Mat::t()` / `trans` / `Mat::ht()` is not
among the source files; the tests `fn_trans_1` and `fn_trans_2` pin it down: the dimensions are
swapped and element `(j,i)` of the result is the conjugate of element `(i,j)` of the argument
(the element itself for a real matrix). -/
def Mat.t {K : Type} [Star K] (A : Mat K) : Mat K :=
  ⟨A.n_cols, A.n_rows, A.mem.conjTranspose⟩

/-- The 5×6 matrix `A` of the tests `fn_trans_1` and `fn_trace_1`. -/
def test_A : Matrix (Fin 5) (Fin 6) ℚ :=
  !![0.061198, 0.201990, 0.019678, -0.493936, -0.126745, 0.051408;
     0.437242, 0.058956, -0.149362, -0.045465, 0.296153, 0.035437;
     -0.492474, -0.031309, 0.314156, 0.419733, 0.068317, -0.454499;
     0.336352, 0.411541, 0.458476, -0.393139, -0.135040, 0.373833;
     0.239585, -0.428913, -0.406953, -0.291020, -0.353768, 0.258704]

/-- The 6×5 matrix `At` the test `fn_trans_1` expects for `A.t()`. -/
def test_At : Matrix (Fin 6) (Fin 5) ℚ :=
  !![0.061198, 0.437242, -0.492474, 0.336352, 0.239585;
     0.201990, 0.058956, -0.031309, 0.411541, -0.428913;
     0.019678, -0.149362, 0.314156, 0.458476, -0.406953;
     -0.493936, -0.045465, 0.419733, -0.393139, -0.291020;
     -0.126745, 0.296153, 0.068317, -0.135040, -0.353768;
     0.051408, 0.035437, -0.454499, 0.373833, 0.258704]

/-- Contract of the C library routines in real arithmetic: `log2` is the base-2 logarithm on
positive reals, and `frexp` writes exponent `0` for a zero argument and otherwise the integer
`e` with `2^(e-1) ≤ |x| < 2^e`. The exactness of `log2` is an idealisation: the program rounds
`log2` to a double (see `roundedPrims`), which is exact on powers of two. -/
def StdLibm (P : Prims ℝ) : Prop :=
  (∀ v : ℝ, 0 < v → P.log2 v = Real.logb 2 v) ∧ P.frexp 0 = 0 ∧
    ∀ x : ℝ, x ≠ 0 → (2 : ℝ) ^ (P.frexp x - 1) ≤ |x| ∧ |x| < (2 : ℝ) ^ P.frexp x

/-- Contract of `std::frexp` alone: exponent `0` for a zero argument, otherwise the integer
`e` with `2^(e-1) ≤ |x| < 2^e`. Nothing is assumed of `log2`. -/
def FrexpContract (P : Prims ℝ) : Prop :=
  P.frexp 0 = 0 ∧
    ∀ x : ℝ, x ≠ 0 → (2 : ℝ) ^ (P.frexp x - 1) ≤ |x| ∧ |x| < (2 : ℝ) ^ P.frexp x

/-- Rounding of a real to the nearest double, for values in the normal range: the nearest
multiple of `2^(e-52)`, where `2^e ≤ |x| < 2^(e+1)` (53-bit significand; the range limits of
the format are not modelled). -/
noncomputable def round_double (x : ℝ) : ℝ :=
  if x = 0 then 0
  else (round (x / (2 : ℝ) ^ (Int.log 2 |x| - 52)) : ℝ) * (2 : ℝ) ^ (Int.log 2 |x| - 52)

/-- Real arithmetic in which `log2` returns the base-2 logarithm rounded to the nearest double,
as the conversion `double(eop_aux::log2(norm_val))` does; everything else as in `realPrims`. -/
noncomputable def roundedPrims : Prims ℝ :=
  exactPrims Real.exp (fun v => round_double (Real.logb 2 v)) (fun _ => true)

/-! ## Auxiliary lemmas -/

theorem mat_is_finite_of_allFinite {K : Type} (P : Prims K) (hfin : AllFinite P) {N : Nat}
    (M : Matrix (Fin N) (Fin N) K) : mat_is_finite P M = true := by
  simp [mat_is_finite, hfin _]

theorem mat_is_finite_eq_false_iff {K : Type} {N : Nat} (P : Prims K) (M : Matrix (Fin N) (Fin N) K) :
    mat_is_finite P M = false ↔ ∃ i j, P.is_finite (M i j) = false := by
  simp [mat_is_finite]

theorem ofMatrix_injective {K : Type} {r c : Nat} (M M' : Matrix (Fin r) (Fin c) K)
    (h : Mat.ofMatrix M = Mat.ofMatrix M') : M = M' := by
  simp only [Mat.ofMatrix, Mat.mk.injEq, heq_eq_eq, true_and] at h
  exact h

theorem uword_wrap_of_lt (w n : Nat) (h : n < 2 ^ w) : uword_wrap w n = n :=
  Nat.mod_eq_of_lt h

theorem uword_sub_of_le (w a b : Nat) (hb : b ≤ a) (ha : a < 2 ^ w) :
    uword_sub w a b = a - b := by
  have hb2 : b < 2 ^ w := lt_of_le_of_lt hb ha
  rw [uword_sub, uword_wrap_of_lt w a ha, uword_wrap_of_lt w b hb2]
  have e : a + (2 ^ w - b) = (a - b) + 2 ^ w := by omega
  rw [e, Nat.add_mod_right]
  exact Nat.mod_eq_of_lt (by omega)

theorem two_pow_ge_64 (w : Nat) (hw : 6 ≤ w) : 64 ≤ 2 ^ w := by
  calc 64 = 2 ^ 6 := by norm_num
    _ ≤ 2 ^ w := Nat.pow_le_pow_right (by norm_num) hw

section Lemmas

variable {K : Type} [LinearOrderedField K] {n m : Nat}

theorem apply_direct_general (P : Prims K) (out : Mat K) {N : Nat}
    (A : Matrix (Fin N) (Fin N) K) :
    apply_direct P out ⟨false, Mat.ofMatrix A⟩ = apply_general P out A := by
  simp [apply_direct, Mat.ofMatrix, Mat.square_mem]

theorem map_div_eq_smul {ι : Type} (A : Matrix ι ι K) (c : K) :
    A.map (fun x => x / c) = c⁻¹ • A := by
  ext i j
  simp [div_eq_inv_mul]

theorem square_loop_eq_pow {ι : Type} [Fintype ι] [DecidableEq ι] (s : Nat) (R : Matrix ι ι K) :
    square_loop s R = R ^ 2 ^ s := by
  induction s with
  | zero => simp [square_loop]
  | succ n ih =>
    simp only [square_loop] at ih ⊢
    rw [List.range_succ, List.foldl_append, ih]
    simp [pow_succ, pow_mul, sq]

theorem pade_of_sq_zero {ι : Type} [Fintype ι] [DecidableEq ι] (w : Nat) (A : Matrix ι ι K)
    (hA : A * A = 0) :
    (pade w A).E = 1 + (1 / 2 : K) • A ∧ (pade w A).D = 1 - (1 / 2 : K) • A := by
  simp [pade, pade_step, pade_init, pade_N, List.range', hA]

theorem one_add_pow_of_sq_zero {ι : Type} [Fintype ι] [DecidableEq ι] (B : Matrix ι ι K)
    (hB : B * B = 0) (n : Nat) : (1 + B) ^ n = 1 + (n : K) • B := by
  induction n with
  | zero => simp
  | succ n ih =>
    rw [pow_succ, ih]
    simp only [Matrix.add_mul, Matrix.mul_add, Matrix.one_mul, Matrix.mul_one,
      Matrix.smul_mul, hB, smul_zero, add_zero, Nat.cast_succ, add_smul, one_smul]
    abel

theorem half_mul_half {ι : Type} [Fintype ι] [DecidableEq ι] (B : Matrix ι ι K)
    (hB : B * B = 0) :
    (1 - (1 / 2 : K) • B) * (1 + (1 / 2 : K) • B) = 1 ∧
      (1 + (1 / 2 : K) • B) * (1 + (1 / 2 : K) • B) = 1 + B := by
  constructor
  · simp only [Matrix.sub_mul, Matrix.mul_add, Matrix.one_mul, Matrix.mul_one,
      Matrix.smul_mul, Matrix.mul_smul, hB, smul_zero, add_zero]
    module
  · simp only [Matrix.add_mul, Matrix.mul_add, Matrix.one_mul, Matrix.mul_one,
      Matrix.smul_mul, Matrix.mul_smul, hB, smul_zero, add_zero]
    module

theorem apply_general_sq_zero (P : Prims K) (hfin : AllFinite P) (hsolve : SolvesInvertible P)
    (out : Mat K) {N : Nat} (A0 : Matrix (Fin N) (Fin N) K) (h0 : A0 * A0 = 0) :
    (apply_general P out A0).ret = .ok true ∧
      (apply_general P out A0).out = Mat.ofMatrix (1 + A0) := by
  simp only [apply_general, map_div_eq_smul]
  generalize scale_exponent P (norm_inf A0) = s
  have h2 : ((2 : K) ^ s) ≠ 0 := by positivity
  have hA0 : ((2 ^ s : Nat) : K) • (((2 : K) ^ s)⁻¹ • A0) = A0 := by
    rw [smul_smul]
    simp [h2]
  have hB : ((2 : K) ^ s)⁻¹ • A0 * (((2 : K) ^ s)⁻¹ • A0) = 0 := by
    simp [Matrix.smul_mul, Matrix.mul_smul, h0]
  generalize ((2 : K) ^ s)⁻¹ • A0 = B at hA0 hB ⊢
  obtain ⟨hE, hD⟩ := pade_of_sq_zero P.uword_bits B hB
  obtain ⟨hDE, hEE⟩ := half_mul_half B hB
  have hunit := Matrix.isUnit_det_of_right_inverse hDE
  have hinv := Matrix.inv_eq_right_inv hDE
  simp only [hE, hD, mat_is_finite_of_allFinite P hfin, hsolve _ _ _ _ hunit, hinv,
    square_loop_eq_pow, hEE, one_add_pow_of_sq_zero B hB, hA0]
  simp

theorem exactPrims_allFinite [FloorRing K] (exp log2 : K → K) :
    AllFinite (exactPrims exp log2 (fun _ => true)) := by
  intro x
  rfl

theorem exactPrims_solvesInvertible [FloorRing K] (exp log2 : K → K) (fin : K → Bool) :
    SolvesInvertible (exactPrims exp log2 fin) := by
  intro N out D E hD
  have hne : D.det ≠ 0 := hD.ne_zero
  simp [exactPrims, hne, Matrix.inv_def, Ring.inverse_eq_inv']

theorem exactPrims_failsSingular [FloorRing K] (exp log2 : K → K) (fin : K → Bool) :
    FailsSingular (exactPrims exp log2 fin) := by
  intro N out D E hD
  have h0 : D.det = 0 := by
    by_contra h
    exact hD (isUnit_iff_ne_zero.mpr h)
  exact ⟨out.reset, by simp [exactPrims, h0]⟩

theorem exp_diag_loop_apply (exp : K → K) {r c : Nat} (M : Matrix (Fin r) (Fin c) K) (n : Nat)
    (a : Fin r) (b : Fin c) :
    exp_diag_loop exp M n a b = if a.val = b.val ∧ a.val < n then exp (M a b) else M a b := by
  induction n generalizing a b with
  | zero => simp [exp_diag_loop]
  | succ n ih =>
    simp only [exp_diag_loop] at ih ⊢
    rw [List.range_succ, List.foldl_append]
    simp only [List.foldl_cons, List.foldl_nil, exp_diag_step]
    by_cases h : a.val = n ∧ b.val = n
    · obtain ⟨ha, hb⟩ := h
      have hr : n < r := ha ▸ a.isLt
      have hc : n < c := hb ▸ b.isLt
      have ea : a = ⟨n, hr⟩ := Fin.ext ha
      have eb : b = ⟨n, hc⟩ := Fin.ext hb
      subst ea eb
      simp [at_diag, hr, hc, ih]
    · rw [if_neg h, ih]
      have hiff : (a.val = b.val ∧ a.val < n + 1) ↔ (a.val = b.val ∧ a.val < n) := by
        constructor
        · rintro ⟨hab, hlt⟩
          refine ⟨hab, ?_⟩
          have hn : a.val ≠ n := fun e => h ⟨e, hab ▸ e⟩
          omega
        · rintro ⟨hab, hlt⟩
          exact ⟨hab, by omega⟩
      simp only [hiff]

theorem apply_direct_square (P : Prims K) (out : Mat K) (expr : Base K)
    (hd : expr.is_op_diagmat = false) (h : expr.get_ref.n_rows = expr.get_ref.n_cols) :
    apply_direct P out expr = apply_general P out (expr.get_ref.square_mem h) := by
  simp [apply_direct, hd, h]

theorem apply_general_ret (P : Prims K) (out : Mat K) {N : Nat} (A0 : Matrix (Fin N) (Fin N) K) :
    ((apply_general P out A0).ret = .ok false ∨ (apply_general P out A0).ret = .ok true) ∧
    ((apply_general P out A0).ret = .ok false ↔
      ((∃ i j, P.is_finite ((accumulated P A0).D i j) = false) ∨
        (∃ i j, P.is_finite ((accumulated P A0).E i j) = false) ∨
        ∃ left, P.solve out (accumulated P A0).D (accumulated P A0).E
          = SolveResult.failed left)) := by
  simp only [← mat_is_finite_eq_false_iff, apply_general, accumulated, scale_of]
  cases hD : mat_is_finite P (pade P.uword_bits
      (A0.map fun x => x / 2 ^ scale_exponent P (norm_inf A0))).D <;>
    cases hE : mat_is_finite P (pade P.uword_bits
      (A0.map fun x => x / 2 ^ scale_exponent P (norm_inf A0))).E <;>
    cases hS : P.solve out
      (pade P.uword_bits (A0.map fun x => x / 2 ^ scale_exponent P (norm_inf A0))).D
      (pade P.uword_bits (A0.map fun x => x / 2 ^ scale_exponent P (norm_inf A0))).E <;>
    simp

theorem apply_direct_diag_ret (P : Prims K) (out : Mat K) (expr : Base K)
    (hd : expr.is_op_diagmat = true) :
    (apply_direct P out expr).out = (if expr.get_ref.is_square = false then expr.get_ref
        else ⟨expr.get_ref.n_rows, expr.get_ref.n_cols,
          exp_diag_loop P.exp expr.get_ref.mem (min expr.get_ref.n_rows expr.get_ref.n_cols)⟩) ∧
      (apply_direct P out expr).ret = (if expr.get_ref.is_square = false
        then .error (.logic_error msg_square) else .ok true) ∧
      (apply_direct P out expr).steps = (if expr.get_ref.is_square = false then []
        else List.replicate (min expr.get_ref.n_rows expr.get_ref.n_cols) Step.scalar_exp) := by
  simp only [apply_direct, hd, if_true]
  split <;> simp

theorem apply_direct_non_square (P : Prims K) (out : Mat K) (expr : Base K)
    (h : expr.get_ref.n_rows ≠ expr.get_ref.n_cols) :
    apply_direct P out expr =
      { out := if expr.is_op_diagmat then expr.get_ref else out,
        ret := .error (.logic_error msg_square), steps := [] } := by
  cases hd : expr.is_op_diagmat <;> simp [apply_direct, hd, h, Mat.is_square]

theorem apply_direct_false_iff (P : Prims K) (out : Mat K) (expr : Base K) :
    (apply_direct P out expr).ret = .ok false ↔ numerical_failure P out expr := by
  cases hd : expr.is_op_diagmat
  · by_cases h : expr.get_ref.n_rows = expr.get_ref.n_cols
    · rw [apply_direct_square P out expr hd h, (apply_general_ret P out _).2]
      simp [numerical_failure, hd, h]
    · rw [apply_direct_non_square P out expr h]
      simp [numerical_failure, h]
  · have hr := (apply_direct_diag_ret P out expr hd).2.1
    rw [hr]
    constructor
    · intro h
      split at h <;> simp at h
    · intro h
      simp [numerical_failure, hd] at h

theorem apply_direct_ret_cases (P : Prims K) (out : Mat K) (expr : Base K) :
    (apply_direct P out expr).ret = .error (.logic_error msg_square) ∨
      (apply_direct P out expr).ret = .ok false ∨ (apply_direct P out expr).ret = .ok true := by
  by_cases h : expr.get_ref.n_rows = expr.get_ref.n_cols
  · cases hd : expr.is_op_diagmat
    · rw [apply_direct_square P out expr hd h]
      rcases (apply_general_ret P out (expr.get_ref.square_mem h)).1 with h1 | h1
      · exact Or.inr (Or.inl h1)
      · exact Or.inr (Or.inr h1)
    · rw [(apply_direct_diag_ret P out expr hd).2.1]
      simp [Mat.is_square, h]
  · rw [apply_direct_non_square P out expr h]
    exact Or.inl rfl

theorem pade_eq_sum {ι : Type} [Fintype ι] [DecidableEq ι] (w : Nat) (A : Matrix ι ι K) :
    (pade w A).E = ∑ j in Finset.range (pade_N + 1), (pade_c w j : K) • A ^ j ∧
      (pade w A).D = ∑ j in Finset.range (pade_N + 1), ((-1 : K) ^ j * pade_c w j) • A ^ j := by
  have e2 : A * A = A ^ 2 := (sq A).symm
  have e3 : A * A ^ 2 = A ^ 3 := (pow_succ' A 2).symm
  have e4 : A * A ^ 3 = A ^ 4 := (pow_succ' A 3).symm
  have e5 : A * A ^ 4 = A ^ 5 := (pow_succ' A 4).symm
  have e6 : A * A ^ 5 = A ^ 6 := (pow_succ' A 5).symm
  constructor
  · simp only [pade, pade_step, pade_init, pade_N, List.range', List.foldl_cons, List.foldl_nil,
      Finset.sum_range_succ, Finset.sum_range_zero, pade_c, e2, e3, e4, e5, e6, pow_zero,
      pow_one, one_smul, zero_add]
  · simp only [pade, pade_step, pade_init, pade_N, List.range', List.foldl_cons, List.foldl_nil,
      Finset.sum_range_succ, Finset.sum_range_zero, pade_c, e2, e3, e4, e5, e6, pow_zero,
      pow_one, one_smul, zero_add, if_true, Bool.false_eq_true, if_false]
    module

theorem pade_diagonal {ι : Type} [Fintype ι] [DecidableEq ι] (w : Nat) (d : ι → K) :
    (pade w (Matrix.diagonal d)).E = Matrix.diagonal (fun i => pade_E_poly w (d i)) ∧
      (pade w (Matrix.diagonal d)).D = Matrix.diagonal (fun i => pade_D_poly w (d i)) := by
  obtain ⟨hE, hD⟩ := pade_eq_sum w (Matrix.diagonal d)
  rw [hE, hD]
  constructor
  · ext a b
    by_cases hab : a = b
    · subst hab
      simp [Matrix.sum_apply, Matrix.diagonal_pow, pade_E_poly]
    · simp [Matrix.sum_apply, Matrix.diagonal_pow, hab]
  · ext a b
    by_cases hab : a = b
    · subst hab
      simp [Matrix.sum_apply, Matrix.diagonal_pow, pade_D_poly]
    · simp [Matrix.sum_apply, Matrix.diagonal_pow, hab]

theorem diagonal_map_div {ι : Type} [DecidableEq ι] (d : ι → K) (c : K) :
    (Matrix.diagonal d).map (fun x => x / c) = Matrix.diagonal (fun i => d i / c) := by
  ext a b
  by_cases hab : a = b
  · subst hab
    simp
  · simp [hab]

theorem diagonal_solve {ι : Type} [Fintype ι] [DecidableEq ι] (p q : ι → K)
    (hq : ∀ i, q i ≠ 0) :
    IsUnit (Matrix.diagonal q).det ∧
      (Matrix.diagonal q)⁻¹ * Matrix.diagonal p = Matrix.diagonal (fun i => p i / q i) := by
  have h1 : Matrix.diagonal q * Matrix.diagonal (fun i => (q i)⁻¹) = 1 := by
    rw [Matrix.diagonal_mul_diagonal]
    simp [hq, ← Matrix.diagonal_one]
  refine ⟨Matrix.isUnit_det_of_right_inverse h1, ?_⟩
  rw [Matrix.inv_eq_right_inv h1, Matrix.diagonal_mul_diagonal]
  have hf : (fun i => (q i)⁻¹ * p i) = (fun i => p i / q i) := by
    funext i
    rw [div_eq_inv_mul]
  rw [hf]

theorem apply_general_diagonal (P : Prims K) (hfin : AllFinite P) (hsolve : SolvesInvertible P)
    (out : Mat K) {N : Nat} (d : Fin N → K)
    (hq : ∀ i, pade_D_poly P.uword_bits (d i / 2 ^ scale_of P (Matrix.diagonal d)) ≠ 0) :
    (apply_general P out (Matrix.diagonal d)).ret = .ok true ∧
      (apply_general P out (Matrix.diagonal d)).out = Mat.ofMatrix (Matrix.diagonal
        (fun i => pade_value P.uword_bits (scale_of P (Matrix.diagonal d)) (d i))) := by
  simp only [scale_of] at hq ⊢
  simp only [apply_general, diagonal_map_div]
  generalize scale_exponent P (norm_inf (Matrix.diagonal d)) = s at hq ⊢
  obtain ⟨hE, hD⟩ := pade_diagonal P.uword_bits (fun i => d i / 2 ^ s)
  obtain ⟨hunit, hinv⟩ := diagonal_solve
    (fun i => pade_E_poly P.uword_bits (d i / 2 ^ s))
    (fun i => pade_D_poly P.uword_bits (d i / 2 ^ s)) hq
  simp only [hE, hD, mat_is_finite_of_allFinite P hfin, hsolve _ _ _ _ hunit, hinv,
    square_loop_eq_pow, Matrix.diagonal_pow]
  simp [pade_value]
  rfl

theorem pade_coeff_exact (w : Nat) (hw : 6 ≤ w) (c : K) (i : Nat) (h2 : 2 ≤ i) (h6 : i ≤ 6) :
    pade_coeff w c i = c * ((7 - i : Nat) : K) / ((i * (13 - i) : Nat) : K) := by
  have h64 := two_pow_ge_64 w hw
  have hmul : i * (13 - i) < 64 := by
    interval_cases i <;> norm_num
  simp only [pade_coeff, pade_N, uword_add, uword_mul]
  rw [uword_sub_of_le w 6 i h6 (by omega), uword_wrap_of_lt w (6 - i + 1) (by omega),
    uword_wrap_of_lt w (2 * 6) (by omega), uword_sub_of_le w (2 * 6) i (by omega) (by omega),
    uword_wrap_of_lt w (2 * 6 - i + 1) (by omega)]
  have e1 : 6 - i + 1 = 7 - i := by omega
  have e2 : 2 * 6 - i + 1 = 13 - i := by omega
  rw [e1, e2, uword_wrap_of_lt w (i * (13 - i)) (by omega)]

theorem pade_c_values (w : Nat) (hw : 6 ≤ w) :
    (pade_c w 0 : K) = 1 ∧ (pade_c w 1 : K) = 1 / 2 ∧ (pade_c w 2 : K) = 5 / 44 ∧
      (pade_c w 3 : K) = 1 / 66 ∧ (pade_c w 4 : K) = 1 / 792 ∧
      (pade_c w 5 : K) = 1 / 15840 ∧ (pade_c w 6 : K) = 1 / 665280 := by
  have c2 : (pade_c w 2 : K) = 5 / 44 := by
    rw [pade_c, pade_coeff_exact w hw _ _ (by norm_num) (by norm_num)]
    norm_num [pade_c]
  have c3 : (pade_c w 3 : K) = 1 / 66 := by
    rw [pade_c, pade_coeff_exact w hw _ _ (by norm_num) (by norm_num), c2]
    norm_num
  have c4 : (pade_c w 4 : K) = 1 / 792 := by
    rw [pade_c, pade_coeff_exact w hw _ _ (by norm_num) (by norm_num), c3]
    norm_num
  have c5 : (pade_c w 5 : K) = 1 / 15840 := by
    rw [pade_c, pade_coeff_exact w hw _ _ (by norm_num) (by norm_num), c4]
    norm_num
  have c6 : (pade_c w 6 : K) = 1 / 665280 := by
    rw [pade_c, pade_coeff_exact w hw _ _ (by norm_num) (by norm_num), c5]
    norm_num
  exact ⟨rfl, rfl, c2, c3, c4, c5, c6⟩

theorem pade_poly_values (w : Nat) (hw : 6 ≤ w) (x : K) :
    pade_E_poly w x = 1 + x / 2 + 5 * x ^ 2 / 44 + x ^ 3 / 66 + x ^ 4 / 792 + x ^ 5 / 15840
        + x ^ 6 / 665280 ∧
      pade_D_poly w x = 1 - x / 2 + 5 * x ^ 2 / 44 - x ^ 3 / 66 + x ^ 4 / 792 - x ^ 5 / 15840
        + x ^ 6 / 665280 := by
  obtain ⟨c0, c1, c2, c3, c4, c5, c6⟩ := pade_c_values (K := K) w hw
  constructor
  · simp only [pade_E_poly, pade_N, Finset.sum_range_succ, Finset.sum_range_zero, c0, c1, c2,
      c3, c4, c5, c6]
    ring
  · simp only [pade_D_poly, pade_N, Finset.sum_range_succ, Finset.sum_range_zero, c0, c1, c2,
      c3, c4, c5, c6]
    ring

theorem pade_D_poly_pos (w : Nat) (hw : 6 ≤ w) (x : K) : 0 < pade_D_poly w x := by
  rw [(pade_poly_values w hw x).2]
  have key : 1 - x / 2 + 5 * x ^ 2 / 44 - x ^ 3 / 66 + x ^ 4 / 792 - x ^ 5 / 15840
      + x ^ 6 / 665280
      = ((x ^ 3 - 21 * x ^ 2 + 130 * x - 200) ^ 2
          + 139 * (x ^ 2 - 2110 / 139 * x + 7800 / 139) ^ 2
          + 371200 / 139 * (x - 38081 / 4640) ^ 2 + 446941 / 58) / 665280 := by
    ring
  rw [key]
  positivity

theorem apply_general_nonfinite {K : Type} [LinearOrderedField K] (P : Prims K) (out : Mat K)
    {N : Nat} (A0 : Matrix (Fin N) (Fin N) K)
    (h : (∃ i j, P.is_finite ((accumulated P A0).D i j) = false) ∨
      (∃ i j, P.is_finite ((accumulated P A0).E i j) = false)) :
    (apply_general P out A0).ret = .ok false ∧ (apply_general P out A0).out = out := by
  simp only [← mat_is_finite_eq_false_iff, accumulated, scale_of] at h
  simp only [apply_general]
  rcases h with h | h <;> simp [h]

theorem blockdiag_mul (X X' : Matrix (Fin n) (Fin n) K) (Y Y' : Matrix (Fin m) (Fin m) K) :
    blockdiag X Y * blockdiag X' Y' = blockdiag (X * X') (Y * Y') := by
  simp [blockdiag, Matrix.submatrix_mul_equiv, Matrix.fromBlocks_multiply]

theorem blockdiag_add (X X' : Matrix (Fin n) (Fin n) K) (Y Y' : Matrix (Fin m) (Fin m) K) :
    blockdiag X Y + blockdiag X' Y' = blockdiag (X + X') (Y + Y') := by
  have h := Matrix.fromBlocks_add X (0 : Matrix (Fin n) (Fin m) K) (0 : Matrix (Fin m) (Fin n) K)
    Y X' 0 0 Y'
  rw [add_zero, add_zero] at h
  simp only [blockdiag, Matrix.reindex_apply, ← h]
  rfl

theorem blockdiag_smul (c : K) (X : Matrix (Fin n) (Fin n) K) (Y : Matrix (Fin m) (Fin m) K) :
    c • blockdiag X Y = blockdiag (c • X) (c • Y) := by
  have h := Matrix.fromBlocks_smul c X (0 : Matrix (Fin n) (Fin m) K)
    (0 : Matrix (Fin m) (Fin n) K) Y
  rw [smul_zero, smul_zero] at h
  simp only [blockdiag, Matrix.reindex_apply, ← h]
  rfl

theorem blockdiag_sub (X X' : Matrix (Fin n) (Fin n) K) (Y Y' : Matrix (Fin m) (Fin m) K) :
    blockdiag X Y - blockdiag X' Y' = blockdiag (X - X') (Y - Y') := by
  have h : blockdiag X' Y' + blockdiag (X - X') (Y - Y') = blockdiag X Y := by
    rw [blockdiag_add]
    simp
  rw [← h]
  simp

theorem blockdiag_one :
    (1 : Matrix (Fin (n + m)) (Fin (n + m)) K) = blockdiag (1 : Matrix (Fin n) (Fin n) K) 1 := by
  simp [blockdiag, Matrix.fromBlocks_one]

theorem blockdiag_pow (X : Matrix (Fin n) (Fin n) K) (Y : Matrix (Fin m) (Fin m) K) (k : Nat) :
    blockdiag X Y ^ k = blockdiag (X ^ k) (Y ^ k) := by
  induction k with
  | zero => simp [blockdiag_one]
  | succ k ih => rw [pow_succ, ih, blockdiag_mul, ← pow_succ, ← pow_succ]

theorem blockdiag_map (f : K → K) (hf : f 0 = 0) (X : Matrix (Fin n) (Fin n) K)
    (Y : Matrix (Fin m) (Fin m) K) :
    (blockdiag X Y).map f = blockdiag (X.map f) (Y.map f) := by
  have h := Matrix.fromBlocks_map X (0 : Matrix (Fin n) (Fin m) K)
    (0 : Matrix (Fin m) (Fin n) K) Y f
  have h0 : ∀ (a b : Nat), (0 : Matrix (Fin a) (Fin b) K).map f = 0 := by
    intro a b
    ext i j
    simp [hf]
  rw [h0, h0] at h
  simp only [blockdiag, Matrix.reindex_apply, ← h]
  rfl

theorem pade_foldl_blockdiag (w : Nat) (A1 : Matrix (Fin n) (Fin n) K)
    (A2 : Matrix (Fin m) (Fin m) K) (l : List Nat)
    (st : PadeState (Fin (n + m)) K) (st1 : PadeState (Fin n) K) (st2 : PadeState (Fin m) K)
    (hc1 : st.c = st1.c) (hc2 : st.c = st2.c)
    (hp1 : st.positive = st1.positive) (hp2 : st.positive = st2.positive)
    (hX : st.X = blockdiag st1.X st2.X) (hE : st.E = blockdiag st1.E st2.E)
    (hD : st.D = blockdiag st1.D st2.D) :
    (l.foldl (pade_step w (blockdiag A1 A2)) st).E
        = blockdiag (l.foldl (pade_step w A1) st1).E (l.foldl (pade_step w A2) st2).E ∧
      (l.foldl (pade_step w (blockdiag A1 A2)) st).D
        = blockdiag (l.foldl (pade_step w A1) st1).D (l.foldl (pade_step w A2) st2).D := by
  induction l generalizing st st1 st2 with
  | nil => exact ⟨hE, hD⟩
  | cons i l ih =>
    simp only [List.foldl_cons]
    apply ih
    · simp [pade_step, hc1]
    · simp [pade_step, hc2]
    · simp [pade_step, hp1]
    · simp [pade_step, hp2]
    · simp [pade_step, hX, blockdiag_mul]
    · simp [pade_step, hX, hE, ← hc1, ← hc2, blockdiag_mul, blockdiag_smul, blockdiag_add]
    · simp only [pade_step, hX, hD, ← hc1, ← hc2, ← hp1, ← hp2]
      cases st.positive <;>
        simp [blockdiag_mul, blockdiag_smul, blockdiag_add, blockdiag_sub]

theorem pade_blockdiag (w : Nat) (A1 : Matrix (Fin n) (Fin n) K)
    (A2 : Matrix (Fin m) (Fin m) K) :
    (pade w (blockdiag A1 A2)).E = blockdiag (pade w A1).E (pade w A2).E ∧
      (pade w (blockdiag A1 A2)).D = blockdiag (pade w A1).D (pade w A2).D := by
  apply pade_foldl_blockdiag <;>
    simp [pade_init, blockdiag_one, blockdiag_smul, blockdiag_add, blockdiag_sub]

theorem blockdiag_solve (D1 E1 : Matrix (Fin n) (Fin n) K) (D2 E2 : Matrix (Fin m) (Fin m) K)
    (h1 : IsUnit D1.det) (h2 : IsUnit D2.det) :
    IsUnit (blockdiag D1 D2).det ∧
      (blockdiag D1 D2)⁻¹ * blockdiag E1 E2 = blockdiag (D1⁻¹ * E1) (D2⁻¹ * E2) := by
  have hinv : blockdiag D1 D2 * blockdiag D1⁻¹ D2⁻¹ = 1 := by
    rw [blockdiag_mul, Matrix.mul_nonsing_inv D1 h1, Matrix.mul_nonsing_inv D2 h2,
      ← blockdiag_one]
  refine ⟨Matrix.isUnit_det_of_right_inverse hinv, ?_⟩
  rw [Matrix.inv_eq_right_inv hinv, blockdiag_mul]

theorem apply_general_success (P : Prims K) (hfin : AllFinite P)
    (hsing : FailsSingular P) (out : Mat K) {N : Nat} (A0 : Matrix (Fin N) (Fin N) K)
    (h : (apply_general P out A0).ret = .ok true) :
    IsUnit (accumulated P A0).D.det := by
  by_contra hD
  obtain ⟨left, hl⟩ := hsing N out _ (accumulated P A0).E hD
  simp only [accumulated, scale_of] at hl
  simp [apply_general, mat_is_finite_of_allFinite P hfin, hl] at h

theorem apply_general_invertible (P : Prims K) (hfin : AllFinite P)
    (hsolve : SolvesInvertible P) (out : Mat K) {N : Nat} (A0 : Matrix (Fin N) (Fin N) K)
    (h : IsUnit (accumulated P A0).D.det) :
    (apply_general P out A0).ret = .ok true ∧
      (apply_general P out A0).out = Mat.ofMatrix
        (((accumulated P A0).D⁻¹ * (accumulated P A0).E) ^ 2 ^ scale_of P A0) := by
  have hs := hsolve N out _ (accumulated P A0).E h
  simp only [accumulated, scale_of] at hs ⊢
  simp [apply_general, mat_is_finite_of_allFinite P hfin, hs, square_loop_eq_pow]

end Lemmas

/-! ## Evaluation in real arithmetic -/

theorem real_scale_exponent_one (exp : ℝ → ℝ) (fin : ℝ → Bool) :
    scale_exponent (exactPrims exp (Real.logb 2) fin) (1 : ℝ) = 1 := by
  simp [scale_exponent, exactPrims, frexp_exponent]

theorem real_scale_exponent_two_pow (exp : ℝ → ℝ) (fin : ℝ → Bool) (m : Nat) (hm : 0 < m) :
    scale_exponent (exactPrims exp (Real.logb 2) fin) ((2 : ℝ) ^ m) = Nat.log 2 m + 2 := by
  have hpos : (2 : ℝ) ^ m > 0 := by positivity
  have hlog : Real.logb 2 ((2 : ℝ) ^ m) = (m : ℝ) := by
    rw [Real.logb_pow, Real.logb_self_eq_one (by norm_num)]
    ring
  have hm0 : (m : ℝ) ≠ 0 := by exact_mod_cast hm.ne'
  simp only [scale_exponent, exactPrims, frexp_exponent, hpos, if_true, hlog, hm0,
    if_false, Nat.abs_cast, Int.log_natCast]
  omega

theorem norm_inf_one_by_one (x : ℝ) (hx : 0 ≤ x) :
    norm_inf (Matrix.diagonal (fun _ : Fin 1 => x)) = x := by
  simp [norm_inf, List.finRange, abs_of_nonneg hx, hx]

theorem one_by_one_eq_diagonal (x : ℝ) :
    (!![x] : Matrix (Fin 1) (Fin 1) ℝ) = Matrix.diagonal (fun _ => x) := by
  ext i j
  fin_cases i
  fin_cases j
  simp

theorem realPrims_uword : 6 ≤ realPrims.uword_bits := by
  simp [realPrims, exactPrims]

theorem realPrims_run_diagonal (out : Mat ℝ) {N : Nat} (d : Fin N → ℝ) :
    (apply_direct realPrims out ⟨false, Mat.ofMatrix (Matrix.diagonal d)⟩).ret = .ok true ∧
      (apply_direct realPrims out ⟨false, Mat.ofMatrix (Matrix.diagonal d)⟩).out
        = Mat.ofMatrix (Matrix.diagonal
          (fun i => pade_value realPrims.uword_bits (scale_of realPrims (Matrix.diagonal d))
            (d i))) := by
  rw [apply_direct_general]
  exact apply_general_diagonal realPrims (exactPrims_allFinite _ _)
    (exactPrims_solvesInvertible _ _ _) out d
    (fun _ => (pade_D_poly_pos _ realPrims_uword _).ne')

theorem realPrims_scale_256 :
    scale_of realPrims (Matrix.diagonal (fun _ : Fin 1 => (256 : ℝ))) = 5 := by
  have h : (256 : ℝ) = 2 ^ 8 := by norm_num
  rw [scale_of, norm_inf_one_by_one _ (by norm_num), h, realPrims,
    real_scale_exponent_two_pow _ _ 8 (by norm_num)]
  have : Nat.log 2 8 = 3 := by
    rw [show (8 : Nat) = 2 ^ 3 by norm_num, Nat.log_pow (by norm_num)]
  omega

theorem realPrims_run_256 :
    (apply_direct realPrims ⟨0, 0, 0⟩
        ⟨false, Mat.ofMatrix ((256 : ℝ) • (1 : Matrix (Fin 1) (Fin 1) ℝ))⟩).out
      = Mat.ofMatrix (((287575 / 127 : ℝ) ^ 32) • (1 : Matrix (Fin 1) (Fin 1) ℝ)) := by
  have hw : 6 ≤ realPrims.uword_bits := by
    simp [realPrims, exactPrims]
  have run := (apply_general_diagonal realPrims (exactPrims_allFinite _ _)
    (exactPrims_solvesInvertible _ _ _) ⟨0, 0, 0⟩ (fun _ : Fin 1 => (256 : ℝ))
    (fun _ => (pade_D_poly_pos _ hw _).ne')).2
  simp only [apply_direct_general, Matrix.smul_one_eq_diagonal]
  rw [run, realPrims_scale_256]
  obtain ⟨hE, hD⟩ := pade_poly_values realPrims.uword_bits hw ((256 : ℝ) / 2 ^ 5)
  simp only [pade_value, hE, hD]
  norm_num

theorem doublePrims_scale :
    scale_of doublePrims (Matrix.diagonal (fun _ : Fin 1 => (2 : ℝ) ^ 256)) = 10 := by
  rw [scale_of, norm_inf_one_by_one _ (by positivity), doublePrims,
    real_scale_exponent_two_pow _ _ 256 (by norm_num)]
  have : Nat.log 2 256 = 8 := by
    rw [show (256 : Nat) = 2 ^ 8 by norm_num, Nat.log_pow (by norm_num)]
  omega

theorem doublePrims_overflow :
    ∃ i j, doublePrims.is_finite
      ((accumulated doublePrims (Matrix.diagonal (fun _ : Fin 1 => (2 : ℝ) ^ 256))).D i j)
        = false := by
  refine ⟨0, 0, ?_⟩
  have hw : 6 ≤ doublePrims.uword_bits := by
    simp [doublePrims, exactPrims]
  rw [accumulated, doublePrims_scale, diagonal_map_div, (pade_diagonal _ _).2,
    Matrix.diagonal_apply_eq, (pade_poly_values _ hw _).2]
  simp only [doublePrims, exactPrims, dbl_max, decide_eq_false_iff_not, not_le]
  rw [abs_of_pos (by norm_num)]
  norm_num

theorem doublePrims_overflow_run (out : Mat ℝ) :
    (apply_direct doublePrims out
        ⟨false, Mat.ofMatrix (!![(2 : ℝ) ^ 256] : Matrix (Fin 1) (Fin 1) ℝ)⟩).ret = .ok false ∧
      (apply_direct doublePrims out
        ⟨false, Mat.ofMatrix (!![(2 : ℝ) ^ 256] : Matrix (Fin 1) (Fin 1) ℝ)⟩).out = out := by
  rw [apply_direct_general, one_by_one_eq_diagonal]
  exact apply_general_nonfinite doublePrims out _ (Or.inl doublePrims_overflow)

theorem blockdiag_one_by_one (a b : ℝ) :
    blockdiag (!![a] : Matrix (Fin 1) (Fin 1) ℝ) (!![b] : Matrix (Fin 1) (Fin 1) ℝ)
      = Matrix.diagonal ![a, b] := by
  ext i j
  fin_cases i <;> fin_cases j <;> rfl

theorem norm_inf_two_by_two (a b : ℝ) (ha : 0 ≤ a) (hb : 0 ≤ b) :
    norm_inf (Matrix.diagonal ![a, b]) = max a b := by
  simp [norm_inf, List.finRange, Fin.sum_univ_two, abs_of_nonneg ha, abs_of_nonneg hb, ha]

theorem nat_log_two_two : Nat.log 2 2 = 1 := by
  have h := Nat.log_pow (b := 2) (by norm_num) 1
  simpa using h

theorem realPrims_scale_one : scale_of realPrims (Matrix.diagonal (fun _ : Fin 1 => (1 : ℝ))) = 1 := by
  rw [scale_of, norm_inf_one_by_one _ (by norm_num), realPrims, real_scale_exponent_one]

theorem realPrims_scale_four : scale_of realPrims (Matrix.diagonal (fun _ : Fin 1 => (4 : ℝ))) = 3 := by
  have h : (4 : ℝ) = 2 ^ 2 := by norm_num
  rw [scale_of, norm_inf_one_by_one _ (by norm_num), h, realPrims,
    real_scale_exponent_two_pow _ _ 2 (by norm_num), nat_log_two_two]

theorem realPrims_scale_diag (a : ℝ) (ha : 0 ≤ a) (ha4 : a ≤ 4) :
    scale_of realPrims (Matrix.diagonal ![a, 4]) = 3 := by
  have h : (4 : ℝ) = 2 ^ 2 := by norm_num
  rw [scale_of, norm_inf_two_by_two _ _ ha (by norm_num), max_eq_right ha4, h, realPrims,
    real_scale_exponent_two_pow _ _ 2 (by norm_num), nat_log_two_two]

/-! ## Claims -/

section Claims

variable {K : Type} [LinearOrderedField K] {n m : Nat}

/-- C1: for every `N`, `apply_direct` on the `N×N` zero matrix (general path, arithmetic in
which every element is finite, solver returning the unique solution of `D·R = E` for
invertible `D`) returns `true` with `out` equal to the `N×N` identity matrix. -/
theorem C1_zero_matrix_gives_identity (P : Prims K) (hfin : AllFinite P)
    (hsolve : SolvesInvertible P) (N : Nat) (out : Mat K) :
    (apply_direct P out ⟨false, Mat.ofMatrix (0 : Matrix (Fin N) (Fin N) K)⟩).ret = .ok true ∧
      (apply_direct P out ⟨false, Mat.ofMatrix (0 : Matrix (Fin N) (Fin N) K)⟩).out
        = Mat.ofMatrix (1 : Matrix (Fin N) (Fin N) K) := by
  rw [apply_direct_general]
  have h := apply_general_sq_zero P hfin hsolve out (0 : Matrix (Fin N) (Fin N) K) (by simp)
  simpa using h

/-- Witness for C1 in exact real arithmetic at `N = 2`. -/
theorem C1_zero_matrix_gives_identity_witness :
    AllFinite realPrims ∧ SolvesInvertible realPrims ∧
      (apply_direct realPrims ⟨0, 0, 0⟩
          ⟨false, Mat.ofMatrix (0 : Matrix (Fin 2) (Fin 2) ℝ)⟩).ret = .ok true ∧
      (apply_direct realPrims ⟨0, 0, 0⟩
          ⟨false, Mat.ofMatrix (0 : Matrix (Fin 2) (Fin 2) ℝ)⟩).out
        = Mat.ofMatrix (1 : Matrix (Fin 2) (Fin 2) ℝ) :=
  ⟨exactPrims_allFinite _ _, exactPrims_solvesInvertible _ _ _,
    C1_zero_matrix_gives_identity realPrims (exactPrims_allFinite _ _)
      (exactPrims_solvesInvertible _ _ _) 2 ⟨0, 0, 0⟩⟩

/-- C2: for every square `A` with `A·A = 0`, `apply_direct` on the general path (every element
finite, solver returning the unique solution for invertible `D`) returns `true` with `out`
exactly `I + A`. -/
theorem C2_nilpotent_exact (P : Prims K) (hfin : AllFinite P) (hsolve : SolvesInvertible P)
    (N : Nat) (A : Matrix (Fin N) (Fin N) K) (hA : A * A = 0) (out : Mat K) :
    (apply_direct P out ⟨false, Mat.ofMatrix A⟩).ret = .ok true ∧
      (apply_direct P out ⟨false, Mat.ofMatrix A⟩).out = Mat.ofMatrix (1 + A) := by
  rw [apply_direct_general]
  exact apply_general_sq_zero P hfin hsolve out A hA

/-- Witness for C2: the nilpotent `[[0,1],[0,0]]` gives exactly `[[1,1],[0,1]]`. -/
theorem C2_nilpotent_exact_witness :
    (!![0, 1; 0, 0] : Matrix (Fin 2) (Fin 2) ℝ) * !![0, 1; 0, 0] = 0 ∧
      (apply_direct realPrims ⟨0, 0, 0⟩
          ⟨false, Mat.ofMatrix (!![0, 1; 0, 0] : Matrix (Fin 2) (Fin 2) ℝ)⟩).ret = .ok true ∧
      (apply_direct realPrims ⟨0, 0, 0⟩
          ⟨false, Mat.ofMatrix (!![0, 1; 0, 0] : Matrix (Fin 2) (Fin 2) ℝ)⟩).out
        = Mat.ofMatrix (!![1, 1; 0, 1] : Matrix (Fin 2) (Fin 2) ℝ) := by
  have hsq : (!![0, 1; 0, 0] : Matrix (Fin 2) (Fin 2) ℝ) * !![0, 1; 0, 0] = 0 := by
    ext i j
    fin_cases i <;> fin_cases j <;> simp [Matrix.mul_apply, Fin.sum_univ_two]
  have hsum : (1 : Matrix (Fin 2) (Fin 2) ℝ) + !![0, 1; 0, 0] = !![1, 1; 0, 1] := by
    ext i j
    fin_cases i <;> fin_cases j <;> simp
  have h := C2_nilpotent_exact realPrims (exactPrims_allFinite _ _)
    (exactPrims_solvesInvertible _ _ _) 2 !![0, 1; 0, 0] hsq ⟨0, 0, 0⟩
  rw [hsum] at h
  exact ⟨hsq, h⟩

/-- C3: for a square input tagged as a diagonal matrix with diagonal entries `d`,
`apply_direct` returns `true`, `out` is the diagonal matrix with entries `exp (d i)` (zero off
the diagonal), and the only steps performed are the `N` scalar exponentials: no norm, solve
or squaring step. -/
theorem C3_diagonal_fast_path (P : Prims K) (N : Nat) (d : Fin N → K) (out : Mat K) :
    (apply_direct P out ⟨true, Mat.ofMatrix (Matrix.diagonal d)⟩).ret = .ok true ∧
      (apply_direct P out ⟨true, Mat.ofMatrix (Matrix.diagonal d)⟩).out
        = Mat.ofMatrix (Matrix.diagonal (fun i => P.exp (d i))) ∧
      (apply_direct P out ⟨true, Mat.ofMatrix (Matrix.diagonal d)⟩).steps
        = List.replicate N Step.scalar_exp ∧
      Step.norm ∉ (apply_direct P out ⟨true, Mat.ofMatrix (Matrix.diagonal d)⟩).steps ∧
      Step.solve ∉ (apply_direct P out ⟨true, Mat.ofMatrix (Matrix.diagonal d)⟩).steps ∧
      Step.square ∉ (apply_direct P out ⟨true, Mat.ofMatrix (Matrix.diagonal d)⟩).steps := by
  have hloop : exp_diag_loop P.exp (Matrix.diagonal d) N
      = Matrix.diagonal (fun i => P.exp (d i)) := by
    ext a b
    rw [exp_diag_loop_apply]
    by_cases hab : a = b
    · subst hab
      simp
    · have hv : a.val ≠ b.val := fun e => hab (Fin.ext e)
      simp [hv, hab]
  simp [apply_direct, Mat.ofMatrix, Mat.is_square, hloop, List.mem_replicate]

/-- C4: `apply_direct` returns `false` exactly when the input takes the general branch, is
square, and either the accumulated `D` or `E` has a non-finite element or the solver reports
failure; every other call that returns (every diagonal-branch call among them) returns
`true`. -/
theorem C4_false_exactly_on_numerical_failure (P : Prims K) (out : Mat K) (expr : Base K) :
    ((apply_direct P out expr).ret = .ok false ↔ numerical_failure P out expr) ∧
      (∀ b, (apply_direct P out expr).ret = .ok b → ¬ numerical_failure P out expr →
        b = true) ∧
      (expr.is_op_diagmat = true → ∀ b, (apply_direct P out expr).ret = .ok b → b = true) := by
  have key := apply_direct_false_iff P out expr
  refine ⟨key, ?_, ?_⟩
  · intro b hb hn
    cases b
    · exact absurd (key.mp hb) hn
    · rfl
  · intro hd b hb
    cases b
    · have := key.mp hb
      simp [numerical_failure, hd] at this
    · rfl

/-- Counterexample to C5 as stated: with elements beyond the largest double counting as
non-finite, the 1×1 input `[[2^256]]` makes `D` non-finite; `apply_direct` returns `false` and
`out` still holds the 1×1 matrix `[[7]]` it held before the call, not an empty matrix. -/
theorem C5_counterexample :
    (apply_direct doublePrims (Mat.ofMatrix (!![7] : Matrix (Fin 1) (Fin 1) ℝ))
        ⟨false, Mat.ofMatrix (!![(2 : ℝ) ^ 256] : Matrix (Fin 1) (Fin 1) ℝ)⟩).ret = .ok false ∧
      (apply_direct doublePrims (Mat.ofMatrix (!![7] : Matrix (Fin 1) (Fin 1) ℝ))
        ⟨false, Mat.ofMatrix (!![(2 : ℝ) ^ 256] : Matrix (Fin 1) (Fin 1) ℝ)⟩).out
        = Mat.ofMatrix (!![7] : Matrix (Fin 1) (Fin 1) ℝ) ∧
      Mat.ofMatrix (!![7] : Matrix (Fin 1) (Fin 1) ℝ) ≠ (⟨0, 0, 0⟩ : Mat ℝ) := by
  refine ⟨(doublePrims_overflow_run _).1, (doublePrims_overflow_run _).2, ?_⟩
  intro h
  have h1 := congrArg Mat.n_rows h
  simp [Mat.ofMatrix] at h1

/-- C5 (amended): whenever `apply_direct` reports failure, the wrapper `apply` resets `out` to
the empty matrix before raising its error; `apply_direct` itself leaves `out` holding what it
held before the call when `D` or `E` has a non-finite element, and what the solver left in it
when the solver reported failure. -/
theorem C5_out_after_failure (P : Prims K) (out : Mat K) (expr : Base K)
    (hfail : (apply_direct P out expr).ret = .ok false) :
    (apply P out expr).out = ⟨0, 0, 0⟩ ∧
      ∃ h : expr.get_ref.n_rows = expr.get_ref.n_cols,
        (((∃ i j, P.is_finite ((accumulated P (expr.get_ref.square_mem h)).D i j) = false) ∨
            (∃ i j, P.is_finite ((accumulated P (expr.get_ref.square_mem h)).E i j) = false)) →
          (apply_direct P out expr).out = out) ∧
        (¬ ((∃ i j, P.is_finite ((accumulated P (expr.get_ref.square_mem h)).D i j) = false) ∨
            (∃ i j, P.is_finite ((accumulated P (expr.get_ref.square_mem h)).E i j) = false)) →
          ∃ left, P.solve out (accumulated P (expr.get_ref.square_mem h)).D
              (accumulated P (expr.get_ref.square_mem h)).E = SolveResult.failed left ∧
            (apply_direct P out expr).out = left) := by
  refine ⟨by simp [apply, hfail, Mat.reset], ?_⟩
  obtain ⟨hd, h, -⟩ := (apply_direct_false_iff P out expr).mp hfail
  refine ⟨h, ?_⟩
  rw [apply_direct_square P out expr hd h] at hfail ⊢
  revert hfail
  simp only [← mat_is_finite_eq_false_iff, apply_general, accumulated, scale_of]
  cases hD : mat_is_finite P (pade P.uword_bits ((expr.get_ref.square_mem h).map
      fun x => x / 2 ^ scale_exponent P (norm_inf (expr.get_ref.square_mem h)))).D <;>
    cases hE : mat_is_finite P (pade P.uword_bits ((expr.get_ref.square_mem h).map
      fun x => x / 2 ^ scale_exponent P (norm_inf (expr.get_ref.square_mem h)))).E <;>
    cases hS : P.solve out
      (pade P.uword_bits ((expr.get_ref.square_mem h).map
        fun x => x / 2 ^ scale_exponent P (norm_inf (expr.get_ref.square_mem h)))).D
      (pade P.uword_bits ((expr.get_ref.square_mem h).map
        fun x => x / 2 ^ scale_exponent P (norm_inf (expr.get_ref.square_mem h)))).E <;>
    simp

/-- Witness for C5 (amended): the failing call on `[[2^256]]`, after which `apply` has reset
`out` to the empty matrix. -/
theorem C5_out_after_failure_witness :
    (apply_direct doublePrims (Mat.ofMatrix (!![7] : Matrix (Fin 1) (Fin 1) ℝ))
        ⟨false, Mat.ofMatrix (!![(2 : ℝ) ^ 256] : Matrix (Fin 1) (Fin 1) ℝ)⟩).ret = .ok false ∧
      (apply doublePrims (Mat.ofMatrix (!![7] : Matrix (Fin 1) (Fin 1) ℝ))
        ⟨false, Mat.ofMatrix (!![(2 : ℝ) ^ 256] : Matrix (Fin 1) (Fin 1) ℝ)⟩).out
        = (⟨0, 0, 0⟩ : Mat ℝ) :=
  ⟨(doublePrims_overflow_run _).1,
    (C5_out_after_failure doublePrims _ _ (doublePrims_overflow_run _).1).1⟩

/-- C6: `apply` raises the runtime error "expmat(): given matrix appears ill-conditioned"
exactly when `apply_direct` returned `false`, and then `out` has been reset to the empty
matrix; when `apply_direct` returned `true`, `apply` leaves `out` as `apply_direct` produced
it and raises nothing. -/
theorem C6_apply_raises_iff_false (P : Prims K) (out : Mat K) (expr : Base K) :
    ((apply P out expr).ret
        = .error (.runtime_error "expmat(): given matrix appears ill-conditioned") ↔
      (apply_direct P out expr).ret = .ok false) ∧
    ((apply_direct P out expr).ret = .ok false → (apply P out expr).out = ⟨0, 0, 0⟩) ∧
    ((apply_direct P out expr).ret = .ok true →
      (apply P out expr).out = (apply_direct P out expr).out ∧
        (apply P out expr).ret = .ok ()) := by
  rcases apply_direct_ret_cases P out expr with h | h | h <;>
    simp [apply, h, msg_ill, Mat.reset]

/-- C7: a non-square input, on the diagonal branch as on the general branch, ends
`apply_direct` with the logic error "expmat(): given matrix must be square sized" (neither
`true` nor `false` is returned), and no numerical step (norm, scalar exponential, Padé
accumulation, solve, squaring) has been performed. -/
theorem C7_non_square_rejected_first (P : Prims K) (out : Mat K) (expr : Base K)
    (h : expr.get_ref.n_rows ≠ expr.get_ref.n_cols) :
    (apply_direct P out expr).ret
        = .error (.logic_error "expmat(): given matrix must be square sized") ∧
      (apply_direct P out expr).steps = [] := by
  rw [apply_direct_non_square P out expr h]
  exact ⟨rfl, rfl⟩

/-- Witness for C7: a 1×2 input is rejected on the diagonal branch and on the general
branch. -/
theorem C7_non_square_rejected_first_witness :
    ((1 : Nat) ≠ 2) ∧
      ((apply_direct realPrims ⟨0, 0, 0⟩
            ⟨true, Mat.ofMatrix (!![1, 2] : Matrix (Fin 1) (Fin 2) ℝ)⟩).ret
          = .error (.logic_error "expmat(): given matrix must be square sized") ∧
        (apply_direct realPrims ⟨0, 0, 0⟩
            ⟨true, Mat.ofMatrix (!![1, 2] : Matrix (Fin 1) (Fin 2) ℝ)⟩).steps = []) ∧
      ((apply_direct realPrims ⟨0, 0, 0⟩
            ⟨false, Mat.ofMatrix (!![1, 2] : Matrix (Fin 1) (Fin 2) ℝ)⟩).ret
          = .error (.logic_error "expmat(): given matrix must be square sized") ∧
        (apply_direct realPrims ⟨0, 0, 0⟩
            ⟨false, Mat.ofMatrix (!![1, 2] : Matrix (Fin 1) (Fin 2) ℝ)⟩).steps = []) :=
  ⟨by decide,
    C7_non_square_rejected_first realPrims ⟨0, 0, 0⟩
      ⟨true, Mat.ofMatrix (!![1, 2] : Matrix (Fin 1) (Fin 2) ℝ)⟩ (by decide),
    C7_non_square_rejected_first realPrims ⟨0, 0, 0⟩
      ⟨false, Mat.ofMatrix (!![1, 2] : Matrix (Fin 1) (Fin 2) ℝ)⟩ (by decide)⟩

/-- Counterexample to C8 as stated: on the diagonal branch a rejected 1×2 input has been
copied into `out`, which was empty before the call. -/
theorem C8_counterexample :
    (apply_direct realPrims ⟨0, 0, 0⟩
        ⟨true, Mat.ofMatrix (!![1, 2] : Matrix (Fin 1) (Fin 2) ℝ)⟩).ret
      = .error (.logic_error "expmat(): given matrix must be square sized") ∧
    (apply_direct realPrims ⟨0, 0, 0⟩
        ⟨true, Mat.ofMatrix (!![1, 2] : Matrix (Fin 1) (Fin 2) ℝ)⟩).out
      ≠ (⟨0, 0, 0⟩ : Mat ℝ) := by
  rw [apply_direct_non_square realPrims _ _ (by decide)]
  refine ⟨rfl, ?_⟩
  intro h
  have h1 := congrArg Mat.n_rows h
  simp [Mat.ofMatrix] at h1

/-- C8 (amended): when `apply_direct` rejects a non-square input, no numerical step has been
performed; on the general branch `out` holds exactly what it held before the call, and on the
diagonal branch `out` holds the evaluated input matrix, unchanged by any exponential. -/
theorem C8_out_after_rejection (P : Prims K) (out : Mat K) (expr : Base K)
    (h : expr.get_ref.n_rows ≠ expr.get_ref.n_cols) :
    (apply_direct P out expr).steps = [] ∧
      (expr.is_op_diagmat = false → (apply_direct P out expr).out = out) ∧
      (expr.is_op_diagmat = true → (apply_direct P out expr).out = expr.get_ref) := by
  rw [apply_direct_non_square P out expr h]
  refine ⟨rfl, ?_, ?_⟩ <;> intro hd <;> simp [hd]

/-- Witness for C8 (amended) on a 1×2 input, general branch and diagonal branch. -/
theorem C8_out_after_rejection_witness :
    ((1 : Nat) ≠ 2) ∧
      (apply_direct realPrims (Mat.ofMatrix (!![7] : Matrix (Fin 1) (Fin 1) ℝ))
          ⟨false, Mat.ofMatrix (!![1, 2] : Matrix (Fin 1) (Fin 2) ℝ)⟩).out
        = Mat.ofMatrix (!![7] : Matrix (Fin 1) (Fin 1) ℝ) ∧
      (apply_direct realPrims (Mat.ofMatrix (!![7] : Matrix (Fin 1) (Fin 1) ℝ))
          ⟨true, Mat.ofMatrix (!![1, 2] : Matrix (Fin 1) (Fin 2) ℝ)⟩).out
        = Mat.ofMatrix (!![1, 2] : Matrix (Fin 1) (Fin 2) ℝ) :=
  ⟨by decide,
    (C8_out_after_rejection realPrims (Mat.ofMatrix (!![7] : Matrix (Fin 1) (Fin 1) ℝ))
      ⟨false, Mat.ofMatrix (!![1, 2] : Matrix (Fin 1) (Fin 2) ℝ)⟩ (by decide)).2.1 rfl,
    (C8_out_after_rejection realPrims (Mat.ofMatrix (!![7] : Matrix (Fin 1) (Fin 1) ℝ))
      ⟨true, Mat.ofMatrix (!![1, 2] : Matrix (Fin 1) (Fin 2) ℝ)⟩ (by decide)).2.2 rfl⟩

/-- What `apply_direct` computes on a scalar matrix `k·I`: tagged as a diagonal matrix, `true`
with `out = exp(k)·I`; on the general branch (every element finite, solver exact on invertible
`D`, `uword` of at least 6 bits), `true` with `out = c·I`, where `c` is the quotient of the two
accumulated polynomials at `k / 2^s`, squared `s` times, for the selected scale exponent `s`. -/
theorem apply_direct_scalar_identity (P : Prims K) (hfin : AllFinite P)
    (hsolve : SolvesInvertible P) (hw : 6 ≤ P.uword_bits) (N : Nat) (k : K) (out : Mat K) :
    ((apply_direct P out ⟨true, Mat.ofMatrix (k • (1 : Matrix (Fin N) (Fin N) K))⟩).ret
          = .ok true ∧
        (apply_direct P out ⟨true, Mat.ofMatrix (k • (1 : Matrix (Fin N) (Fin N) K))⟩).out
          = Mat.ofMatrix (P.exp k • (1 : Matrix (Fin N) (Fin N) K))) ∧
      ((apply_direct P out ⟨false, Mat.ofMatrix (k • (1 : Matrix (Fin N) (Fin N) K))⟩).ret
          = .ok true ∧
        (apply_direct P out ⟨false, Mat.ofMatrix (k • (1 : Matrix (Fin N) (Fin N) K))⟩).out
          = Mat.ofMatrix (pade_value P.uword_bits
              (scale_of P (k • (1 : Matrix (Fin N) (Fin N) K))) k
            • (1 : Matrix (Fin N) (Fin N) K))) := by
  constructor
  · have hloop : exp_diag_loop P.exp (Matrix.diagonal (fun _ : Fin N => k)) N
        = Matrix.diagonal (fun _ => P.exp k) := by
      ext a b
      rw [exp_diag_loop_apply]
      by_cases hab : a = b
      · subst hab
        simp
      · have hv : a.val ≠ b.val := fun e => hab (Fin.ext e)
        simp [hv, hab]
    simp only [Matrix.smul_one_eq_diagonal]
    simp [apply_direct, Mat.ofMatrix, Mat.is_square, hloop]
  · simp only [apply_direct_general, Matrix.smul_one_eq_diagonal]
    exact apply_general_diagonal P hfin hsolve out (fun _ => k)
      (fun _ => (pade_D_poly_pos P.uword_bits hw _).ne')

/-- Block-diagonal inputs on the general branch (every element finite, solver exact on
invertible `D` and failing on singular `D`): if `apply_direct` succeeds on the square blocks
`A1` and `A2` and selects for each of them the same scale exponent as for `diag(A1, A2)`, then
it succeeds on `diag(A1, A2)` with the block-diagonal matrix of the two results. -/
theorem apply_direct_blockdiag_same_scale (P : Prims K) (hfin : AllFinite P)
    (hsolve : SolvesInvertible P) (hsing : FailsSingular P)
    (A1 : Matrix (Fin n) (Fin n) K) (A2 : Matrix (Fin m) (Fin m) K) (out out1 out2 : Mat K)
    (h1 : (apply_direct P out1 ⟨false, Mat.ofMatrix A1⟩).ret = .ok true)
    (h2 : (apply_direct P out2 ⟨false, Mat.ofMatrix A2⟩).ret = .ok true)
    (hs1 : scale_of P A1 = scale_of P (blockdiag A1 A2))
    (hs2 : scale_of P A2 = scale_of P (blockdiag A1 A2)) :
    ∃ (R1 : Matrix (Fin n) (Fin n) K) (R2 : Matrix (Fin m) (Fin m) K),
      (apply_direct P out1 ⟨false, Mat.ofMatrix A1⟩).out = Mat.ofMatrix R1 ∧
      (apply_direct P out2 ⟨false, Mat.ofMatrix A2⟩).out = Mat.ofMatrix R2 ∧
      (apply_direct P out ⟨false, Mat.ofMatrix (blockdiag A1 A2)⟩).ret = .ok true ∧
      (apply_direct P out ⟨false, Mat.ofMatrix (blockdiag A1 A2)⟩).out
        = Mat.ofMatrix (blockdiag R1 R2) := by
  rw [apply_direct_general] at h1 h2
  simp only [apply_direct_general]
  have u1 := apply_general_success P hfin hsing out1 A1 h1
  have u2 := apply_general_success P hfin hsing out2 A2 h2
  have r1 := (apply_general_invertible P hfin hsolve out1 A1 u1).2
  have r2 := (apply_general_invertible P hfin hsolve out2 A2 u2).2
  have hdiv : (fun x : K => x / 2 ^ scale_of P (blockdiag A1 A2)) 0 = 0 := by simp
  have hacc : (accumulated P (blockdiag A1 A2)).E
        = blockdiag (accumulated P A1).E (accumulated P A2).E ∧
      (accumulated P (blockdiag A1 A2)).D
        = blockdiag (accumulated P A1).D (accumulated P A2).D := by
    simp only [accumulated, hs1, hs2]
    rw [blockdiag_map _ hdiv]
    exact pade_blockdiag _ _ _
  obtain ⟨hE, hD⟩ := hacc
  obtain ⟨hunit, hinv⟩ := blockdiag_solve (accumulated P A1).D (accumulated P A1).E
    (accumulated P A2).D (accumulated P A2).E u1 u2
  rw [← hD] at hunit
  have r := apply_general_invertible P hfin hsolve out (blockdiag A1 A2) hunit
  refine ⟨_, _, r1, r2, r.1, ?_⟩
  rw [r.2, hD, hE, hinv, blockdiag_pow, hs1, hs2]

end Claims

section Claims11
variable {K : Type} [LinearOrderedField K]

theorem apply_general_prior_out (P : Prims K) (hdet : SolverIgnoresOut P) (out out' : Mat K)
    {N : Nat} (A0 : Matrix (Fin N) (Fin N) K) :
    (apply_general P out A0).ret = (apply_general P out' A0).ret ∧
      ((apply_general P out A0).ret = .ok true →
        (apply_general P out A0).out = (apply_general P out' A0).out) ∧
      ((apply_general P out A0).out = (apply_general P out' A0).out ∨
        ((apply_general P out A0).out = out ∧ (apply_general P out' A0).out = out')) := by
  simp only [apply_general]
  rw [hdet N out out']
  cases hD : mat_is_finite P (pade P.uword_bits
      (A0.map fun x => x / 2 ^ scale_exponent P (norm_inf A0))).D <;>
    cases hE : mat_is_finite P (pade P.uword_bits
      (A0.map fun x => x / 2 ^ scale_exponent P (norm_inf A0))).E <;>
    cases hS : P.solve out'
      (pade P.uword_bits (A0.map fun x => x / 2 ^ scale_exponent P (norm_inf A0))).D
      (pade P.uword_bits (A0.map fun x => x / 2 ^ scale_exponent P (norm_inf A0))).E <;>
    simp

/-- C11 (amended): with a solver whose result is a function of `D` and `E` alone, the status of
`apply_direct` is a function of the input alone, and so is the final `out` whenever the call
returns `true` and on the whole diagonal branch; in every call the final `out` is either that
function of the input or exactly what `out` held before the call. -/
theorem C11_status_function_of_input (P : Prims K) (hdet : SolverIgnoresOut P)
    (out out' : Mat K) (expr : Base K) :
    (apply_direct P out expr).ret = (apply_direct P out' expr).ret ∧
      ((apply_direct P out expr).ret = .ok true →
        (apply_direct P out expr).out = (apply_direct P out' expr).out) ∧
      (expr.is_op_diagmat = true →
        (apply_direct P out expr).out = (apply_direct P out' expr).out) ∧
      ((apply_direct P out expr).out = (apply_direct P out' expr).out ∨
        ((apply_direct P out expr).out = out ∧ (apply_direct P out' expr).out = out')) := by
  cases hd : expr.is_op_diagmat
  · by_cases h : expr.get_ref.n_rows = expr.get_ref.n_cols
    · rw [apply_direct_square P out expr hd h, apply_direct_square P out' expr hd h]
      obtain ⟨h1, h2, h3⟩ := apply_general_prior_out P hdet out out' (expr.get_ref.square_mem h)
      exact ⟨h1, h2, by simp, h3⟩
    · rw [apply_direct_non_square P out expr h, apply_direct_non_square P out' expr h]
      simp [hd]
  · obtain ⟨o1, r1, -⟩ := apply_direct_diag_ret P out expr hd
    obtain ⟨o2, r2, -⟩ := apply_direct_diag_ret P out' expr hd
    rw [o1, o2, r1, r2]
    simp

end Claims11

theorem exactPrims_ignoresOut {K : Type} [LinearOrderedField K] [FloorRing K]
    (exp log2 : K → K) (fin : K → Bool) : SolverIgnoresOut (exactPrims exp log2 fin) := by
  intro N out out' D E
  simp [exactPrims, Mat.reset]

/-- Counterexample to C11 as stated: two calls on the same input `[[2^256]]` with the same
solver, one with `out = [[7]]` and one with `out = [[8]]` before the call, both return `false`
and end with different `out`. -/
theorem C11_counterexample :
    (apply_direct doublePrims (Mat.ofMatrix (!![7] : Matrix (Fin 1) (Fin 1) ℝ))
        ⟨false, Mat.ofMatrix (!![(2 : ℝ) ^ 256] : Matrix (Fin 1) (Fin 1) ℝ)⟩).out
      ≠ (apply_direct doublePrims (Mat.ofMatrix (!![8] : Matrix (Fin 1) (Fin 1) ℝ))
        ⟨false, Mat.ofMatrix (!![(2 : ℝ) ^ 256] : Matrix (Fin 1) (Fin 1) ℝ)⟩).out := by
  rw [(doublePrims_overflow_run _).2, (doublePrims_overflow_run _).2]
  intro h
  have h0 := congrFun (congrFun (ofMatrix_injective _ _ h) 0) 0
  norm_num at h0

/-- Witness for C11 (amended): the same two calls have the same status. -/
theorem C11_status_function_of_input_witness :
    SolverIgnoresOut doublePrims ∧
      (apply_direct doublePrims (Mat.ofMatrix (!![7] : Matrix (Fin 1) (Fin 1) ℝ))
          ⟨false, Mat.ofMatrix (!![(2 : ℝ) ^ 256] : Matrix (Fin 1) (Fin 1) ℝ)⟩).ret
        = (apply_direct doublePrims (Mat.ofMatrix (!![8] : Matrix (Fin 1) (Fin 1) ℝ))
          ⟨false, Mat.ofMatrix (!![(2 : ℝ) ^ 256] : Matrix (Fin 1) (Fin 1) ℝ)⟩).ret :=
  ⟨exactPrims_ignoresOut _ _ _,
    (C11_status_function_of_input doublePrims (exactPrims_ignoresOut _ _ _) _ _ _).1⟩

/-- C12: transposition is an involution on matrices of any shape — `A.t().t() = A` for the
Hermitian transpose over any scalars with an involutive conjugation (complex or real) and
`A.st().st() = A` for the simple transpose — and a real 5×6 matrix transposes to the 6×5
matrix with `At(j,i) = A(i,j)`; on the matrix `A` of the test `fn_trans_1` this is the expected
matrix `At`. -/
theorem C12_transpose_involution :
    (∀ (K : Type) [InvolutiveStar K] (A : Mat K), A.t.t = A) ∧
      (∀ (K : Type) (A : Mat K), A.st.st = A) ∧
      (∀ (M : Matrix (Fin 5) (Fin 6) ℝ),
        (Mat.ofMatrix M).t = Mat.ofMatrix (Matrix.of (fun (j : Fin 6) (i : Fin 5) => M i j)) ∧
        (Mat.ofMatrix M).t.n_rows = 6 ∧ (Mat.ofMatrix M).t.n_cols = 5) ∧
      (Mat.ofMatrix test_A).t = Mat.ofMatrix test_At ∧
      (Mat.ofMatrix test_A).st = Mat.ofMatrix test_At := by
  refine ⟨?_, ?_, ?_, ?_, ?_⟩
  · intro K _ A
    simp [Mat.t, Matrix.conjTranspose_conjTranspose]
  · intro K A
    simp [Mat.st, Matrix.transpose_transpose]
  · intro M
    refine ⟨?_, rfl, rfl⟩
    simp only [Mat.t, Mat.ofMatrix, Mat.mk.injEq, heq_eq_eq, true_and]
    ext j i
    simp [Matrix.conjTranspose_apply]
  · simp only [Mat.t, Mat.ofMatrix, Mat.mk.injEq, heq_eq_eq, true_and]
    ext i j
    fin_cases i <;> fin_cases j <;> rfl
  · simp only [Mat.st, Mat.ofMatrix, Mat.mk.injEq, heq_eq_eq, true_and]
    ext i j
    fin_cases i <;> fin_cases j <;> rfl

section Claims13
variable {K : Type} [LinearOrderedField K]

theorem trace_foldl_eq_sum {r c : Nat} (M : Matrix (Fin r) (Fin c) K) (n : Nat) :
    (List.range n).foldl (fun acc i => acc + at_diag M i) 0
      = ∑ i in Finset.range n, at_diag M i := by
  induction n with
  | zero => simp
  | succ n ih => rw [List.range_succ, List.foldl_append, ih, Finset.sum_range_succ]; simp

theorem trace_eq_sum (A : Mat K) :
    trace A = ∑ i in Finset.range (min A.n_rows A.n_cols), at_diag A.mem i :=
  trace_foldl_eq_sum A.mem _

/-- C13: for every matrix `A` with `r` rows and `c` columns, square or not, `trace A` is the
sum of the main-diagonal elements `A(i,i)`, `i < min(r,c)`, and `trace (2·A) = 2·trace A`,
`trace (A + A) = trace A + trace A`. -/
theorem C13_trace_diagonal_sum (r c : Nat) (M : Matrix (Fin r) (Fin c) K) :
    trace (Mat.ofMatrix M)
        = ∑ i : Fin (min r c), M ⟨i.val, lt_of_lt_of_le i.isLt (min_le_left r c)⟩
            ⟨i.val, lt_of_lt_of_le i.isLt (min_le_right r c)⟩ ∧
      trace (Mat.ofMatrix ((2 : K) • M)) = 2 * trace (Mat.ofMatrix M) ∧
      trace (Mat.ofMatrix (M + M)) = trace (Mat.ofMatrix M) + trace (Mat.ofMatrix M) := by
  refine ⟨?_, ?_, ?_⟩
  · rw [trace_eq_sum, ← Fin.sum_univ_eq_sum_range]
    apply Finset.sum_congr rfl
    intro i _
    have h1 : i.val < r := lt_of_lt_of_le i.isLt (min_le_left r c)
    have h2 : i.val < c := lt_of_lt_of_le i.isLt (min_le_right r c)
    simp [at_diag, Mat.ofMatrix, h1, h2]
  · rw [trace_eq_sum, trace_eq_sum, Finset.mul_sum]
    apply Finset.sum_congr rfl
    intro i _
    simp only [at_diag, Mat.ofMatrix]
    split <;> simp
  · rw [trace_eq_sum, trace_eq_sum, ← Finset.sum_add_distrib]
    apply Finset.sum_congr rfl
    intro i _
    simp only [at_diag, Mat.ofMatrix]
    split <;> simp

end Claims13

/-- Check of the `trace` model on the test `fn_trace_1`: the trace of the 5×6 test matrix is
the sum of the test's `diagonal` vector. -/
theorem trace_test_A :
    trace (Mat.ofMatrix test_A) = 0.061198 + 0.058956 + 0.314156 + -0.393139 + -0.353768 := by
  simp [trace, Mat.ofMatrix, List.range_succ, at_diag, test_A]

/-- C14 (failing input): for the 1×1 input `[[256]]` in exact real arithmetic the selected
scale exponent is 5 (`log2 256 = 8`, whose `frexp` exponent is 4), and the scaled matrix
`A / 2^5` has infinity-norm 8, which exceeds 1. -/
theorem C14_scaled_norm_exceeds_one :
    scale_of realPrims (Matrix.diagonal (fun _ : Fin 1 => (256 : ℝ))) = 5 ∧
      norm_inf ((Matrix.diagonal (fun _ : Fin 1 => (256 : ℝ))).map
        (fun x => x / (2 : ℝ) ^ scale_of realPrims (Matrix.diagonal (fun _ : Fin 1 => (256 : ℝ)))))
        = 8 ∧
      ¬ ((8 : ℝ) ≤ 1) := by
  refine ⟨realPrims_scale_256, ?_, by norm_num⟩
  rw [realPrims_scale_256, diagonal_map_div, norm_inf_one_by_one _ (by norm_num)]
  norm_num

section Claims15
variable {K : Type} [LinearOrderedField K]

theorem pade_upto_succ {ι : Type} [Fintype ι] [DecidableEq ι] (w : Nat) (A : Matrix ι ι K)
    (i : Nat) (hi : 1 ≤ i) :
    pade_upto w A (i + 1) = pade_step w A (pade_upto w A i) (i + 1) := by
  have h : i + 1 - 1 = (i - 1) + 1 := by omega
  simp only [pade_upto, h, List.range'_concat, List.foldl_append, List.foldl_cons,
    List.foldl_nil, mul_one]
  congr 1
  omega

theorem pade_upto_six {ι : Type} [Fintype ι] [DecidableEq ι] (w : Nat) (A : Matrix ι ι K) :
    pade_upto w A 6 = pade w A := rfl

theorem pade_upto_c_X {ι : Type} [Fintype ι] [DecidableEq ι] (w : Nat) (A : Matrix ι ι K)
    (i : Nat) (hi : 1 ≤ i) :
    (pade_upto w A i).c = pade_c w i ∧ (pade_upto w A i).X = A ^ i := by
  induction i, hi using Nat.le_induction with
  | base => simp [pade_upto, pade_init, pade_c]
  | succ i hi ih =>
    rw [pade_upto_succ w A i hi]
    obtain ⟨hc, hX⟩ := ih
    obtain ⟨j, rfl⟩ : ∃ j, i = j + 1 := ⟨i - 1, by omega⟩
    simp only [pade_step, hc, hX, pade_c]
    exact ⟨trivial, (pow_succ' A (j + 1)).symm⟩

end Claims15

section Claims15b
variable {K : Type} [LinearOrderedField K]

theorem uword_index_exact (w : Nat) (hw : 6 ≤ w) (i : Nat) (h2 : 2 ≤ i) (h6 : i ≤ 6) :
    ((uword_add w (uword_sub w pade_N i) 1 : Nat) : Int) = (pade_N : Int) - i + 1 ∧
      ((uword_add w (uword_sub w (uword_mul w 2 pade_N) i) 1 : Nat) : Int)
        = 2 * (pade_N : Int) - i + 1 := by
  have h64 := two_pow_ge_64 w hw
  simp only [pade_N, uword_add, uword_mul]
  rw [uword_sub_of_le w 6 i h6 (by omega), uword_wrap_of_lt w (6 - i + 1) (by omega),
    uword_wrap_of_lt w (2 * 6) (by omega), uword_sub_of_le w (2 * 6) i (by omega) (by omega),
    uword_wrap_of_lt w (2 * 6 - i + 1) (by omega)]
  constructor <;> omega

/-- C15: with a `uword` of at least 6 bits, the coefficient `c` of the accumulation loop takes
the values `1/2, 5/44, 1/66, 1/792, 1/15840, 1/665280` in iterations `1..6`, which are the
diagonal Padé coefficients `(12-j)!·6! / (12!·j!·(6-j)!)`, and the unsigned index expressions
`N - i + 1` and `2N - i + 1` equal their integer values (no wrap-around) for `i = 2..6`. -/
theorem C15_pade_coefficients (w : Nat) (hw : 6 ≤ w) :
    ((pade_c w 1 : K) = 1 / 2 ∧ (pade_c w 2 : K) = 5 / 44 ∧ (pade_c w 3 : K) = 1 / 66 ∧
        (pade_c w 4 : K) = 1 / 792 ∧ (pade_c w 5 : K) = 1 / 15840 ∧
        (pade_c w 6 : K) = 1 / 665280) ∧
      (∀ j : Nat, 1 ≤ j → j ≤ 6 →
        (pade_c w j : K) = (((12 - j).factorial * (6).factorial : Nat) : K)
          / ((((12).factorial * j.factorial * (6 - j).factorial : Nat)) : K)) ∧
      (∀ (N : Nat) (A : Matrix (Fin N) (Fin N) K) (i : Nat), 1 ≤ i → i ≤ 6 →
        (pade_upto w A i).c = pade_c w i) ∧
      (∀ i : Nat, 2 ≤ i → i ≤ 6 →
        ((uword_add w (uword_sub w pade_N i) 1 : Nat) : Int) = (pade_N : Int) - i + 1 ∧
        ((uword_add w (uword_sub w (uword_mul w 2 pade_N) i) 1 : Nat) : Int)
          = 2 * (pade_N : Int) - i + 1) := by
  obtain ⟨-, c1, c2, c3, c4, c5, c6⟩ := pade_c_values (K := K) w hw
  refine ⟨⟨c1, c2, c3, c4, c5, c6⟩, ?_, ?_, ?_⟩
  · intro j h1 h6
    interval_cases j
    · rw [c1]; norm_num [Nat.factorial]
    · rw [c2]; norm_num [Nat.factorial]
    · rw [c3]; norm_num [Nat.factorial]
    · rw [c4]; norm_num [Nat.factorial]
    · rw [c5]; norm_num [Nat.factorial]
    · rw [c6]; norm_num [Nat.factorial]
  · intro N A i h1 _
    exact (pade_upto_c_X w A i h1).1
  · intro i h2 h6
    exact uword_index_exact w hw i h2 h6

end Claims15b

/-- Witness for C15 at the 64-bit `uword`, over the rationals. -/
theorem C15_pade_coefficients_witness :
    (6 ≤ 64) ∧ (pade_c 64 2 : ℚ) = 5 / 44 ∧ (pade_c 64 6 : ℚ) = 1 / 665280 :=
  ⟨by norm_num, (C15_pade_coefficients (K := ℚ) 64 (by norm_num)).1.2.1,
    (C15_pade_coefficients (K := ℚ) 64 (by norm_num)).1.2.2.2.2.2⟩

section Claims16
variable {K : Type} [LinearOrderedField K]

theorem neg_pow_smul {ι : Type} [Fintype ι] [DecidableEq ι] (A : Matrix ι ι K) (c : K)
    (j : Nat) : c • (-A) ^ j = ((-1) ^ j * c) • A ^ j := by
  rcases Nat.even_or_odd j with h | h
  · rw [h.neg_pow, h.neg_one_pow, one_mul]
  · rw [h.neg_pow, h.neg_one_pow, smul_neg, neg_one_mul, neg_smul]

theorem pade_neg {ι : Type} [Fintype ι] [DecidableEq ι] (w : Nat) (A : Matrix ι ι K) :
    (pade w (-A)).E = (pade w A).D ∧ (pade w (-A)).D = (pade w A).E := by
  rw [(pade_eq_sum w (-A)).1, (pade_eq_sum w (-A)).2, (pade_eq_sum w A).1, (pade_eq_sum w A).2]
  constructor
  · apply Finset.sum_congr rfl
    intro j _
    exact neg_pow_smul A _ j
  · apply Finset.sum_congr rfl
    intro j _
    rw [neg_pow_smul, ← mul_assoc, ← pow_add, ← two_mul, pow_mul]
    simp

/-- C16: after the accumulation loop on a square matrix `A'`, `E = Σ_{j=0..6} c_j·A'^j` and
`D = Σ_{j=0..6} (-1)^j·c_j·A'^j` with `c_0 = 1` and `c_j` the loop's coefficient in iteration
`j`; hence `D` computed for `A'` is `E` computed for `-A'`; and the accumulator `X` equals
`A'^i` at the end of iteration `i`. -/
theorem C16_pade_accumulators (w : Nat) (N : Nat) (A : Matrix (Fin N) (Fin N) K) :
    (pade w A).E = ∑ j in Finset.range 7, (pade_c w j : K) • A ^ j ∧
      (pade w A).D = ∑ j in Finset.range 7, ((-1 : K) ^ j * pade_c w j) • A ^ j ∧
      (pade_c w 0 : K) = 1 ∧
      (∀ j : Nat, 1 ≤ j → j ≤ 6 → (pade_upto w A j).c = pade_c w j) ∧
      (pade w A).D = (pade w (-A)).E ∧
      (∀ i : Nat, 1 ≤ i → i ≤ 6 → (pade_upto w A i).X = A ^ i) ∧
      pade_upto w A 6 = pade w A := by
  refine ⟨(pade_eq_sum w A).1, (pade_eq_sum w A).2, rfl, ?_, (pade_neg w A).1.symm, ?_, rfl⟩
  · intro j h1 _
    exact (pade_upto_c_X w A j h1).1
  · intro i h1 _
    exact (pade_upto_c_X w A i h1).2

end Claims16

section Claims17
variable {K : Type} [LinearOrderedField K]

/-- C17: on every successful general-branch call, `out` equals `R^(2^s)`, where `R` is the
matrix the solver returned for `D·R = E` and `s` is the selected scale exponent, and the
squaring loop has performed exactly `s` multiplications. -/
theorem C17_out_is_repeated_square (P : Prims K) (out : Mat K) (N : Nat)
    (A0 : Matrix (Fin N) (Fin N) K)
    (h : (apply_direct P out ⟨false, Mat.ofMatrix A0⟩).ret = .ok true) :
    ∃ R : Matrix (Fin N) (Fin N) K,
      P.solve out (accumulated P A0).D (accumulated P A0).E = SolveResult.solved R ∧
      (apply_direct P out ⟨false, Mat.ofMatrix A0⟩).out
        = Mat.ofMatrix (R ^ 2 ^ scale_of P A0) ∧
      (apply_direct P out ⟨false, Mat.ofMatrix A0⟩).steps.count Step.square
        = scale_of P A0 := by
  rw [apply_direct_general] at h ⊢
  revert h
  simp only [apply_general, accumulated, scale_of]
  cases hD : mat_is_finite P (pade P.uword_bits
      (A0.map fun x => x / 2 ^ scale_exponent P (norm_inf A0))).D <;>
    cases hE : mat_is_finite P (pade P.uword_bits
      (A0.map fun x => x / 2 ^ scale_exponent P (norm_inf A0))).E <;>
    cases hS : P.solve out
      (pade P.uword_bits (A0.map fun x => x / 2 ^ scale_exponent P (norm_inf A0))).D
      (pade P.uword_bits (A0.map fun x => x / 2 ^ scale_exponent P (norm_inf A0))).E <;>
    simp [square_loop_eq_pow, pade_N, List.count_replicate]

end Claims17

/-- Witness for C17: the successful call on `[[4]]` in exact real arithmetic. -/
theorem C17_out_is_repeated_square_witness :
    (apply_direct realPrims ⟨0, 0, 0⟩ ⟨false, Mat.ofMatrix !![(4 : ℝ)]⟩).ret = .ok true ∧
      ∃ R : Matrix (Fin 1) (Fin 1) ℝ,
        realPrims.solve ⟨0, 0, 0⟩ (accumulated realPrims !![(4 : ℝ)]).D
          (accumulated realPrims !![(4 : ℝ)]).E = SolveResult.solved R ∧
        (apply_direct realPrims ⟨0, 0, 0⟩ ⟨false, Mat.ofMatrix !![(4 : ℝ)]⟩).out
          = Mat.ofMatrix (R ^ 2 ^ scale_of realPrims !![(4 : ℝ)]) ∧
        (apply_direct realPrims ⟨0, 0, 0⟩
            ⟨false, Mat.ofMatrix !![(4 : ℝ)]⟩).steps.count Step.square
          = scale_of realPrims !![(4 : ℝ)] := by
  have h1 : (apply_direct realPrims ⟨0, 0, 0⟩ ⟨false, Mat.ofMatrix !![(4 : ℝ)]⟩).ret
      = .ok true := by
    rw [one_by_one_eq_diagonal]
    exact (realPrims_run_diagonal _ _).1
  exact ⟨h1, C17_out_is_repeated_square realPrims ⟨0, 0, 0⟩ 1 !![(4 : ℝ)] h1⟩

theorem frexp_bounds_iff (x : ℝ) (hx : x ≠ 0) (e : Int) :
    ((2 : ℝ) ^ (e - 1) ≤ |x| ∧ |x| < (2 : ℝ) ^ e) ↔ e = Int.log 2 |x| + 1 := by
  have hpos : 0 < |x| := abs_pos.mpr hx
  have h1 := Int.zpow_le_iff_le_log (R := ℝ) (b := 2) (by norm_num) (x := e - 1) hpos
  have h2 := Int.lt_zpow_iff_log_lt (R := ℝ) (b := 2) (by norm_num) (x := e) hpos
  simp only [Nat.cast_ofNat] at h1 h2
  rw [h1, h2]
  constructor
  · rintro ⟨a, b⟩
    omega
  · intro h
    omega

theorem stdLibm_frexp (P : Prims ℝ) (hP : StdLibm P) (x : ℝ) : P.frexp x = frexp_exponent x := by
  by_cases hx : x = 0
  · simp [frexp_exponent, hx, hP.2.1]
  · simp only [frexp_exponent, hx, if_false]
    exact (frexp_bounds_iff x hx _).mp (hP.2.2 x hx)

theorem realPrims_stdLibm (exp : ℝ → ℝ) (fin : ℝ → Bool) :
    StdLibm (exactPrims exp (Real.logb 2) fin) := by
  refine ⟨fun _ _ => rfl, by simp [exactPrims, frexp_exponent], ?_⟩
  intro x hx
  have h : (exactPrims exp (Real.logb 2) fin).frexp x = Int.log 2 |x| + 1 := by
    simp [exactPrims, frexp_exponent, hx]
  exact (frexp_bounds_iff x hx _).mpr h

theorem stdLibm_scale_exponent (P : Prims ℝ) (hP : StdLibm P) (v : ℝ) (hv : 0 < v) :
    scale_exponent P v = Int.toNat (max 0 (frexp_exponent (Real.logb 2 v) + 1)) := by
  simp only [scale_exponent, gt_iff_lt, hv, if_true, hP.1 v hv, stdLibm_frexp P hP]

section Claims19
variable {K : Type} [LinearOrderedField K]

theorem norm_inf_zero (N : Nat) : norm_inf (0 : Matrix (Fin N) (Fin N) K) = 0 := by
  have h : ∀ (l : List (Fin N)),
      l.foldl (fun acc i => max acc (∑ j, |(0 : Matrix (Fin N) (Fin N) K) i j|)) 0 = 0 := by
    intro l
    induction l with
    | nil => rfl
    | cons a l ih => simpa using ih
  exact h _

theorem scale_exponent_zero (P : Prims K) (hf : P.frexp 0 = 0) : scale_exponent P 0 = 1 := by
  simp [scale_exponent, hf]

theorem apply_general_square_count (P : Prims K) (out : Mat K) {N : Nat}
    (A0 : Matrix (Fin N) (Fin N) K) (h : (apply_general P out A0).ret = .ok true) :
    (apply_general P out A0).steps.count Step.square = scale_of P A0 := by
  revert h
  simp only [apply_general, scale_of]
  cases hD : mat_is_finite P (pade P.uword_bits
      (A0.map fun x => x / 2 ^ scale_exponent P (norm_inf A0))).D <;>
    cases hE : mat_is_finite P (pade P.uword_bits
      (A0.map fun x => x / 2 ^ scale_exponent P (norm_inf A0))).E <;>
    cases hS : P.solve out
      (pade P.uword_bits (A0.map fun x => x / 2 ^ scale_exponent P (norm_inf A0))).D
      (pade P.uword_bits (A0.map fun x => x / 2 ^ scale_exponent P (norm_inf A0))).E <;>
    simp [pade_N, List.count_replicate]

/-- C19 (amended): for every square input whose infinity-norm is zero, with `frexp` writing
exponent `0` for a zero argument, the selected scale exponent is 1: the working copy is
divided by `2^1 = 2`, and a successful call performs exactly one squaring multiplication. -/
theorem C19_zero_norm_scale_is_one (P : Prims K) (hf : P.frexp 0 = 0) (N : Nat)
    (A0 : Matrix (Fin N) (Fin N) K) (hz : norm_inf A0 = 0) (out : Mat K) :
    scale_of P A0 = 1 ∧
      A0.map (fun x => x / (2 : K) ^ scale_of P A0) = A0.map (fun x => x / 2) ∧
      ((apply_direct P out ⟨false, Mat.ofMatrix A0⟩).ret = .ok true →
        (apply_direct P out ⟨false, Mat.ofMatrix A0⟩).steps.count Step.square = 1) := by
  have hs : scale_of P A0 = 1 := by
    rw [scale_of, hz, scale_exponent_zero P hf]
  refine ⟨hs, by rw [hs, pow_one], ?_⟩
  intro h
  rw [apply_direct_general] at h ⊢
  rw [apply_general_square_count P out A0 h, hs]

end Claims19

/-- Counterexample to C19 as stated: the 2×2 zero matrix has infinity-norm zero, yet in exact
real arithmetic the selected scale exponent is 1, not 0, and the call performs one squaring
multiplication. -/
theorem C19_counterexample :
    norm_inf (0 : Matrix (Fin 2) (Fin 2) ℝ) = 0 ∧
      scale_of realPrims (0 : Matrix (Fin 2) (Fin 2) ℝ) ≠ 0 ∧
      (apply_direct realPrims ⟨0, 0, 0⟩
          ⟨false, Mat.ofMatrix (0 : Matrix (Fin 2) (Fin 2) ℝ)⟩).steps.count Step.square
        ≠ 0 := by
  have hs : scale_of realPrims (0 : Matrix (Fin 2) (Fin 2) ℝ) = 1 := by
    rw [scale_of, norm_inf_zero]
    exact scale_exponent_zero realPrims (realPrims_stdLibm _ _).2.1
  have hr := (apply_general_sq_zero realPrims (exactPrims_allFinite _ _)
    (exactPrims_solvesInvertible _ _ _) ⟨0, 0, 0⟩ (0 : Matrix (Fin 2) (Fin 2) ℝ) (by simp)).1
  refine ⟨norm_inf_zero 2, by rw [hs]; norm_num, ?_⟩
  rw [apply_direct_general, apply_general_square_count realPrims _ _ hr, hs]
  norm_num

/-- Witness for C19 (amended): the 2×2 zero matrix in exact real arithmetic. -/
theorem C19_zero_norm_scale_is_one_witness :
    realPrims.frexp 0 = 0 ∧ norm_inf (0 : Matrix (Fin 2) (Fin 2) ℝ) = 0 ∧
      scale_of realPrims (0 : Matrix (Fin 2) (Fin 2) ℝ) = 1 :=
  ⟨(realPrims_stdLibm _ _).2.1, norm_inf_zero 2,
    (C19_zero_norm_scale_is_one realPrims (realPrims_stdLibm _ _).2.1 2 0 (norm_inf_zero 2)
      ⟨0, 0, 0⟩).1⟩

section Claims20
variable {K : Type} [LinearOrderedField K]

theorem norm_inf_neg {N : Nat} (A : Matrix (Fin N) (Fin N) K) : norm_inf (-A) = norm_inf A := by
  simp [norm_inf]

theorem accumulated_neg (P : Prims K) {N : Nat} (A0 : Matrix (Fin N) (Fin N) K) :
    scale_of P (-A0) = scale_of P A0 ∧
      (accumulated P (-A0)).E = (accumulated P A0).D ∧
      (accumulated P (-A0)).D = (accumulated P A0).E := by
  have hs : scale_of P (-A0) = scale_of P A0 := by
    rw [scale_of, scale_of, norm_inf_neg]
  have hm : (-A0).map (fun x => x / (2 : K) ^ scale_of P A0)
      = -(A0.map (fun x => x / (2 : K) ^ scale_of P A0)) := by
    ext i j
    simp [neg_div]
  refine ⟨hs, ?_, ?_⟩
  · rw [accumulated, hs, hm, (pade_neg _ _).1, accumulated]
  · rw [accumulated, hs, hm, (pade_neg _ _).2, accumulated]

/-- C20: with every element finite and a solver exact on invertible `D`, for every square `A`
whose accumulated `D` and `E` are both invertible, `apply_direct` succeeds on `A` and on `-A`
with the same scale exponent, and the result for `-A` times the result for `A` is the
identity. -/
theorem C20_negation_gives_inverse (P : Prims K) (hfin : AllFinite P)
    (hsolve : SolvesInvertible P) (N : Nat) (A0 : Matrix (Fin N) (Fin N) K) (out out' : Mat K)
    (hD : IsUnit (accumulated P A0).D.det) (hE : IsUnit (accumulated P A0).E.det) :
    scale_of P (-A0) = scale_of P A0 ∧
      (apply_direct P out ⟨false, Mat.ofMatrix A0⟩).ret = .ok true ∧
      (apply_direct P out' ⟨false, Mat.ofMatrix (-A0)⟩).ret = .ok true ∧
      ∃ R R' : Matrix (Fin N) (Fin N) K,
        (apply_direct P out ⟨false, Mat.ofMatrix A0⟩).out = Mat.ofMatrix R ∧
        (apply_direct P out' ⟨false, Mat.ofMatrix (-A0)⟩).out = Mat.ofMatrix R' ∧
        R' * R = 1 := by
  obtain ⟨hs, hnE, hnD⟩ := accumulated_neg P A0
  have hD' : IsUnit (accumulated P (-A0)).D.det := by rw [hnD]; exact hE
  have r := apply_general_invertible P hfin hsolve out A0 hD
  have r' := apply_general_invertible P hfin hsolve out' (-A0) hD'
  simp only [apply_direct_general]
  refine ⟨hs, r.1, r'.1, _, _, r.2, r'.2, ?_⟩
  rw [hnD, hnE, hs]
  have hXY : ((accumulated P A0).E⁻¹ * (accumulated P A0).D)
      * ((accumulated P A0).D⁻¹ * (accumulated P A0).E) = 1 := by
    rw [Matrix.mul_assoc, ← Matrix.mul_assoc (accumulated P A0).D,
      Matrix.mul_nonsing_inv _ hD, Matrix.one_mul, Matrix.nonsing_inv_mul _ hE]
  have hYX : ((accumulated P A0).D⁻¹ * (accumulated P A0).E)
      * ((accumulated P A0).E⁻¹ * (accumulated P A0).D) = 1 := by
    rw [Matrix.mul_assoc, ← Matrix.mul_assoc (accumulated P A0).E,
      Matrix.mul_nonsing_inv _ hE, Matrix.one_mul, Matrix.nonsing_inv_mul _ hD]
  have hc : Commute ((accumulated P A0).E⁻¹ * (accumulated P A0).D)
      ((accumulated P A0).D⁻¹ * (accumulated P A0).E) := by
    rw [Commute, SemiconjBy, hXY, hYX]
  rw [← hc.mul_pow, hXY, one_pow]

end Claims20

theorem pade_E_poly_pos {K : Type} [LinearOrderedField K] (w : Nat) (hw : 6 ≤ w) (x : K) :
    0 < pade_E_poly w x := by
  have h := pade_D_poly_pos w hw (-x)
  rw [(pade_poly_values w hw (-x)).2] at h
  rw [(pade_poly_values w hw x).1]
  have e : 1 - -x / 2 + 5 * (-x) ^ 2 / 44 - (-x) ^ 3 / 66 + (-x) ^ 4 / 792 - (-x) ^ 5 / 15840
      + (-x) ^ 6 / 665280
      = 1 + x / 2 + 5 * x ^ 2 / 44 + x ^ 3 / 66 + x ^ 4 / 792 + x ^ 5 / 15840
        + x ^ 6 / 665280 := by
    ring
  rw [e] at h
  exact h

theorem accumulated_diagonal_units {K : Type} [LinearOrderedField K] (P : Prims K)
    (hw : 6 ≤ P.uword_bits) {N : Nat} (d : Fin N → K) :
    IsUnit (accumulated P (Matrix.diagonal d)).D.det ∧
      IsUnit (accumulated P (Matrix.diagonal d)).E.det := by
  rw [accumulated, diagonal_map_div, (pade_diagonal _ _).1, (pade_diagonal _ _).2,
    Matrix.det_diagonal, Matrix.det_diagonal]
  constructor
  · exact isUnit_iff_ne_zero.mpr
      (Finset.prod_ne_zero_iff.mpr (fun i _ => (pade_D_poly_pos _ hw _).ne'))
  · exact isUnit_iff_ne_zero.mpr
      (Finset.prod_ne_zero_iff.mpr (fun i _ => (pade_E_poly_pos _ hw _).ne'))

/-- Witness for C20: the 1×1 input `[[4]]` in exact real arithmetic. -/
theorem C20_negation_gives_inverse_witness :
    AllFinite realPrims ∧ SolvesInvertible realPrims ∧
      IsUnit (accumulated realPrims (Matrix.diagonal (fun _ : Fin 1 => (4 : ℝ)))).D.det ∧
      IsUnit (accumulated realPrims (Matrix.diagonal (fun _ : Fin 1 => (4 : ℝ)))).E.det ∧
      (apply_direct realPrims ⟨0, 0, 0⟩
          ⟨false, Mat.ofMatrix (Matrix.diagonal (fun _ : Fin 1 => (4 : ℝ)))⟩).ret = .ok true ∧
      (apply_direct realPrims ⟨0, 0, 0⟩
          ⟨false, Mat.ofMatrix (-Matrix.diagonal (fun _ : Fin 1 => (4 : ℝ)))⟩).ret
        = .ok true ∧
      ∃ R R' : Matrix (Fin 1) (Fin 1) ℝ,
        (apply_direct realPrims ⟨0, 0, 0⟩
            ⟨false, Mat.ofMatrix (Matrix.diagonal (fun _ : Fin 1 => (4 : ℝ)))⟩).out
          = Mat.ofMatrix R ∧
        (apply_direct realPrims ⟨0, 0, 0⟩
            ⟨false, Mat.ofMatrix (-Matrix.diagonal (fun _ : Fin 1 => (4 : ℝ)))⟩).out
          = Mat.ofMatrix R' ∧
        R' * R = 1 := by
  obtain ⟨hD, hE⟩ := accumulated_diagonal_units realPrims realPrims_uword
    (fun _ : Fin 1 => (4 : ℝ))
  obtain ⟨-, h1, h2, h3⟩ := C20_negation_gives_inverse realPrims (exactPrims_allFinite _ _)
    (exactPrims_solvesInvertible _ _ _) 1 (Matrix.diagonal (fun _ : Fin 1 => (4 : ℝ)))
    ⟨0, 0, 0⟩ ⟨0, 0, 0⟩ hD hE
  exact ⟨exactPrims_allFinite _ _, exactPrims_solvesInvertible _ _ _, hD, hE, h1, h2, h3⟩

theorem frexp_exponent_le_of_abs_lt (x : ℝ) (k : Nat) (h : |x| < (2 : ℝ) ^ k) :
    frexp_exponent x ≤ (k : Int) := by
  by_cases hx : x = 0
  · simp [frexp_exponent, hx]
  · simp only [frexp_exponent, hx, if_false]
    have hpos : 0 < |x| := abs_pos.mpr hx
    have h2 := Int.lt_zpow_iff_log_lt (R := ℝ) (b := 2) (by norm_num) (x := (k : Int)) hpos
    simp only [Nat.cast_ofNat, zpow_natCast] at h2
    have := h2.mp h
    omega

theorem frexp_exponent_abs (x y : ℝ) (h : |x| = |y|) : frexp_exponent x = frexp_exponent y := by
  have h0 : x = 0 ↔ y = 0 := by
    rw [← abs_eq_zero, h, abs_eq_zero]
  by_cases hx : x = 0
  · simp [frexp_exponent, hx, h0.mp hx]
  · have hy : y ≠ 0 := fun e => hx (h0.mpr e)
    simp [frexp_exponent, hx, hy, h]

theorem logb_two_abs_le (v : ℝ) (hlo : (2 : ℝ) ^ (-1074 : Int) ≤ v) (hhi : v < (2 : ℝ) ^ 1024) :
    0 < v ∧ |Real.logb 2 v| < (2 : ℝ) ^ 11 := by
  have hv : 0 < v := lt_of_lt_of_le (by positivity) hlo
  have h1 : (-1074 : ℝ) ≤ Real.logb 2 v := by
    rw [Real.le_logb_iff_rpow_le (by norm_num) hv]
    have e : (2 : ℝ) ^ (-1074 : ℝ) = (2 : ℝ) ^ (-1074 : Int) := by
      rw [← Real.rpow_intCast]
      norm_num
    rw [e]
    exact hlo
  have h2 : Real.logb 2 v < 1024 := by
    rw [Real.logb_lt_iff_lt_rpow (by norm_num) hv]
    have e : (2 : ℝ) ^ (1024 : ℝ) = (2 : ℝ) ^ 1024 := by
      rw [← Real.rpow_natCast]
      norm_num
    rw [e]
    exact hhi
  refine ⟨hv, ?_⟩
  rw [abs_lt]
  constructor <;> norm_num <;> linarith

theorem apply_general_square_count_le {K : Type} [LinearOrderedField K] (P : Prims K)
    (out : Mat K) {N : Nat} (A0 : Matrix (Fin N) (Fin N) K) :
    (apply_general P out A0).steps.count Step.square ≤ scale_of P A0 := by
  simp only [apply_general, scale_of]
  cases hD : mat_is_finite P (pade P.uword_bits
      (A0.map fun x => x / 2 ^ scale_exponent P (norm_inf A0))).D <;>
    cases hE : mat_is_finite P (pade P.uword_bits
      (A0.map fun x => x / 2 ^ scale_exponent P (norm_inf A0))).E <;>
    cases hS : P.solve out
      (pade P.uword_bits (A0.map fun x => x / 2 ^ scale_exponent P (norm_inf A0))).D
      (pade P.uword_bits (A0.map fun x => x / 2 ^ scale_exponent P (norm_inf A0))).E <;>
    simp [pade_N, List.count_replicate]

/-- C21: with `log2` and `frexp` meeting their library contract, for every input whose
infinity-norm `v` lies in the finite positive double range `2^-1074 ≤ v < 2^1024`, the
selected scale exponent is at most 12, so the squaring loop performs at most 12 matrix
multiplications. -/
theorem C21_scale_exponent_at_most_twelve (P : Prims ℝ) (hP : StdLibm P) (N : Nat)
    (A0 : Matrix (Fin N) (Fin N) ℝ) (out : Mat ℝ)
    (hlo : (2 : ℝ) ^ (-1074 : Int) ≤ norm_inf A0) (hhi : norm_inf A0 < (2 : ℝ) ^ 1024) :
    scale_of P A0 ≤ 12 ∧
      (apply_direct P out ⟨false, Mat.ofMatrix A0⟩).steps.count Step.square ≤ 12 := by
  obtain ⟨hv, hab⟩ := logb_two_abs_le (norm_inf A0) hlo hhi
  have hs : scale_of P A0 ≤ 12 := by
    rw [scale_of, stdLibm_scale_exponent P hP _ hv]
    have he := frexp_exponent_le_of_abs_lt _ 11 hab
    omega
  refine ⟨hs, ?_⟩
  rw [apply_direct_general]
  exact le_trans (apply_general_square_count_le P out A0) hs

/-- Witness for C21: the 1×1 input `[[4]]` in exact real arithmetic. -/
theorem C21_scale_exponent_at_most_twelve_witness :
    StdLibm realPrims ∧
      (2 : ℝ) ^ (-1074 : Int) ≤ norm_inf (Matrix.diagonal (fun _ : Fin 1 => (4 : ℝ))) ∧
      norm_inf (Matrix.diagonal (fun _ : Fin 1 => (4 : ℝ))) < (2 : ℝ) ^ 1024 ∧
      scale_of realPrims (Matrix.diagonal (fun _ : Fin 1 => (4 : ℝ))) ≤ 12 := by
  have hn : norm_inf (Matrix.diagonal (fun _ : Fin 1 => (4 : ℝ))) = 4 :=
    norm_inf_one_by_one _ (by norm_num)
  have hlo : (2 : ℝ) ^ (-1074 : Int) ≤ norm_inf (Matrix.diagonal (fun _ : Fin 1 => (4 : ℝ))) := by
    rw [hn]
    have h1 : (2 : ℝ) ^ (-1074 : Int) ≤ (2 : ℝ) ^ (0 : Int) :=
      zpow_le_zpow_right₀ (by norm_num) (by norm_num)
    have h2 : (2 : ℝ) ^ (0 : Int) = 1 := zpow_zero 2
    linarith
  have hhi : norm_inf (Matrix.diagonal (fun _ : Fin 1 => (4 : ℝ))) < (2 : ℝ) ^ 1024 := by
    rw [hn]
    norm_num
  exact ⟨realPrims_stdLibm _ _, hlo, hhi,
    (C21_scale_exponent_at_most_twelve realPrims (realPrims_stdLibm _ _) 1 _ ⟨0, 0, 0⟩
      hlo hhi).1⟩

theorem stdLibm_scale_exponent_abs (P : Prims ℝ) (hP : StdLibm P) (v w : ℝ) (hv : 0 < v)
    (hw : 0 < w) (h : |Real.logb 2 w| = |Real.logb 2 v|) :
    scale_exponent P w = scale_exponent P v := by
  rw [stdLibm_scale_exponent P hP v hv, stdLibm_scale_exponent P hP w hw,
    frexp_exponent_abs _ _ h]

/-- C22: with `log2` and `frexp` meeting their library contract, the selected scale exponent
depends on a positive norm `v` only through `|log2 v|`: the exponent for norm `1/v` equals the
exponent for norm `v`, so a matrix of norm `1/v` is scaled by the same power of two as a matrix
of norm `v`. -/
theorem C22_scale_exponent_reciprocal (P : Prims ℝ) (hP : StdLibm P) (v : ℝ) (hv : 0 < v) :
    scale_exponent P (1 / v) = scale_exponent P v ∧
      (∀ w : ℝ, 0 < w → |Real.logb 2 w| = |Real.logb 2 v| →
        scale_exponent P w = scale_exponent P v) ∧
      (∀ (N M : Nat) (A : Matrix (Fin N) (Fin N) ℝ) (B : Matrix (Fin M) (Fin M) ℝ),
        norm_inf A = v → norm_inf B = 1 / v → scale_of P B = scale_of P A) := by
  have hinv : 0 < 1 / v := by positivity
  have habs : |Real.logb 2 (1 / v)| = |Real.logb 2 v| := by
    rw [one_div, Real.logb_inv, abs_neg]
  have h1 := stdLibm_scale_exponent_abs P hP v (1 / v) hv hinv habs
  refine ⟨h1, ?_, ?_⟩
  · intro w hw h
    exact stdLibm_scale_exponent_abs P hP v w hv hw h
  · intro N M A B hA hB
    rw [scale_of, scale_of, hA, hB, h1]

/-- Witness for C22: norms `4` and `1/4` in exact real arithmetic. -/
theorem C22_scale_exponent_reciprocal_witness :
    StdLibm realPrims ∧ (0 : ℝ) < 4 ∧
      scale_exponent realPrims (1 / 4 : ℝ) = scale_exponent realPrims (4 : ℝ) :=
  ⟨realPrims_stdLibm _ _, by norm_num,
    (C22_scale_exponent_reciprocal realPrims (realPrims_stdLibm _ _) 4 (by norm_num)).1⟩

theorem factor_6000_lt : (6000 : ℝ) < (1.3127 : ℝ) ^ 32 := by
  norm_num

theorem exp_256_lower : ((2.7182818283 : ℝ) ^ 8) ^ 32 < Real.exp 256 := by
  have e1 : Real.exp 256 = Real.exp 1 ^ 256 := by
    rw [← Real.exp_nat_mul]
    norm_num
  rw [e1, ← pow_mul]
  exact pow_lt_pow_left₀ Real.exp_one_gt_d9 (by norm_num) (by norm_num)

/-- C9 (failing input): on the general branch in exact real arithmetic, the 1×1 matrix `256·I`
gives `out = (287575/127)^32 · I` (scale exponent 5, approximant evaluated at 8), and
`exp(256)` is more than 6000 times that value. -/
theorem C9_general_path_far_from_exp :
    (apply_direct realPrims ⟨0, 0, 0⟩
        ⟨false, Mat.ofMatrix ((256 : ℝ) • (1 : Matrix (Fin 1) (Fin 1) ℝ))⟩).ret = .ok true ∧
      (apply_direct realPrims ⟨0, 0, 0⟩
        ⟨false, Mat.ofMatrix ((256 : ℝ) • (1 : Matrix (Fin 1) (Fin 1) ℝ))⟩).out
        = Mat.ofMatrix (((287575 / 127 : ℝ) ^ 32) • (1 : Matrix (Fin 1) (Fin 1) ℝ)) ∧
      6000 * (287575 / 127 : ℝ) ^ 32 < Real.exp 256 := by
  refine ⟨?_, realPrims_run_256, ?_⟩
  · simp only [Matrix.smul_one_eq_diagonal]
    exact (realPrims_run_diagonal _ _).1
  · have h1 : 6000 * (287575 / 127 : ℝ) ^ 32 < (1.3127 : ℝ) ^ 32 * (287575 / 127 : ℝ) ^ 32 :=
      mul_lt_mul_of_pos_right factor_6000_lt (by positivity)
    have h2 : (1.3127 : ℝ) ^ 32 * (287575 / 127 : ℝ) ^ 32
        ≤ ((2.7182818283 : ℝ) ^ 8) ^ 32 := by
      rw [← mul_pow]
      exact pow_le_pow_left₀ (by norm_num) (by norm_num) 32
    exact lt_trans (lt_of_lt_of_le h1 h2) exp_256_lower

theorem nat_log_two_sixteen : Nat.log 2 16 = 4 := by
  have h := Nat.log_pow (b := 2) (by norm_num) 4
  simpa using h

theorem realPrims_scale_65536 :
    scale_of realPrims (Matrix.diagonal (fun _ : Fin 1 => (65536 : ℝ))) = 6 := by
  have h : (65536 : ℝ) = 2 ^ 16 := by norm_num
  rw [scale_of, norm_inf_one_by_one _ (by norm_num), h, realPrims,
    real_scale_exponent_two_pow _ _ 16 (by norm_num), nat_log_two_sixteen]

theorem realPrims_scale_diag_256_65536 :
    scale_of realPrims (Matrix.diagonal ![(256 : ℝ), 65536]) = 6 := by
  have h : (65536 : ℝ) = 2 ^ 16 := by norm_num
  rw [scale_of, norm_inf_two_by_two _ _ (by norm_num) (by norm_num),
    max_eq_right (by norm_num), h, realPrims,
    real_scale_exponent_two_pow _ _ 16 (by norm_num), nat_log_two_sixteen]

theorem pade_value_256_at_scale_6 :
    pade_value realPrims.uword_bits 6 (256 : ℝ) = (64261 / 1177 : ℝ) ^ 64 := by
  obtain ⟨hE, hD⟩ := pade_poly_values realPrims.uword_bits realPrims_uword ((256 : ℝ) / 2 ^ 6)
  simp only [pade_value, hE, hD]
  norm_num

/-- C10 (failing input): in exact real arithmetic the calls on `[[256]]`, on `[[65536]]` and on
`diag([[256]], [[65536]])` all succeed and the result for the block-diagonal matrix is
block-diagonal, but its first diagonal block `(64261/1177)^64` (scale exponent 6 of the whole
matrix) is more than 6000 times the result `(287575/127)^32` for `[[256]]` alone (scale
exponent 5). -/
theorem C10_block_far_from_block_result :
    (apply_direct realPrims ⟨0, 0, 0⟩ ⟨false, Mat.ofMatrix !![(256 : ℝ)]⟩).ret = .ok true ∧
      (apply_direct realPrims ⟨0, 0, 0⟩ ⟨false, Mat.ofMatrix !![(256 : ℝ)]⟩).out
        = Mat.ofMatrix !![(287575 / 127 : ℝ) ^ 32] ∧
      (apply_direct realPrims ⟨0, 0, 0⟩ ⟨false, Mat.ofMatrix !![(65536 : ℝ)]⟩).ret
        = .ok true ∧
      (apply_direct realPrims ⟨0, 0, 0⟩
          ⟨false, Mat.ofMatrix (blockdiag !![(256 : ℝ)] !![(65536 : ℝ)])⟩).ret = .ok true ∧
      (∃ b2 : ℝ,
        (apply_direct realPrims ⟨0, 0, 0⟩
            ⟨false, Mat.ofMatrix (blockdiag !![(256 : ℝ)] !![(65536 : ℝ)])⟩).out
          = Mat.ofMatrix (blockdiag !![(64261 / 1177 : ℝ) ^ 64] !![b2])) ∧
      6000 * (287575 / 127 : ℝ) ^ 32 < (64261 / 1177 : ℝ) ^ 64 := by
  have run1 := realPrims_run_diagonal ⟨0, 0, 0⟩ (fun _ : Fin 1 => (256 : ℝ))
  have run2 := realPrims_run_diagonal ⟨0, 0, 0⟩ (fun _ : Fin 1 => (65536 : ℝ))
  have run := realPrims_run_diagonal ⟨0, 0, 0⟩ ![(256 : ℝ), 65536]
  rw [realPrims_scale_diag_256_65536] at run
  rw [← one_by_one_eq_diagonal] at run1 run2
  rw [← blockdiag_one_by_one] at run
  have h256 := realPrims_run_256
  rw [Matrix.smul_one_eq_diagonal, Matrix.smul_one_eq_diagonal, ← one_by_one_eq_diagonal,
    ← one_by_one_eq_diagonal] at h256
  refine ⟨run1.1, h256, run2.1, run.1, ⟨pade_value realPrims.uword_bits 6 (65536 : ℝ), ?_⟩, ?_⟩
  · rw [run.2, blockdiag_one_by_one, ← pade_value_256_at_scale_6]
    congr 2
    funext i
    fin_cases i <;> rfl
  · have h1 : 6000 * (287575 / 127 : ℝ) ^ 32 < (1.3127 : ℝ) ^ 32 * (287575 / 127 : ℝ) ^ 32 :=
      mul_lt_mul_of_pos_right factor_6000_lt (by positivity)
    have h2 : (1.3127 : ℝ) ^ 32 * (287575 / 127 : ℝ) ^ 32 ≤ ((64261 / 1177 : ℝ) ^ 2) ^ 32 := by
      rw [← mul_pow]
      exact pow_le_pow_left₀ (by norm_num) (by norm_num) 32
    have h3 : ((64261 / 1177 : ℝ) ^ 2) ^ 32 = (64261 / 1177 : ℝ) ^ 64 := by
      rw [← pow_mul]
    rw [← h3]
    exact lt_of_lt_of_le h1 h2

theorem frexpContract_frexp (P : Prims ℝ) (hP : FrexpContract P) (x : ℝ) :
    P.frexp x = frexp_exponent x := by
  by_cases hx : x = 0
  · simp [frexp_exponent, hx, hP.1]
  · simp only [frexp_exponent, hx, if_false]
    exact (frexp_bounds_iff x hx _).mp (hP.2 x hx)

theorem frexpContract_scale_exponent (P : Prims ℝ) (hP : FrexpContract P) (v : ℝ)
    (hv : 0 < v) :
    scale_exponent P v = Int.toNat (max 0 (frexp_exponent (P.log2 v) + 1)) := by
  simp only [scale_exponent, gt_iff_lt, hv, if_true, frexpContract_frexp P hP]

theorem exactPrims_frexpContract (exp log2 : ℝ → ℝ) (fin : ℝ → Bool) :
    FrexpContract (exactPrims exp log2 fin) := by
  refine ⟨by simp [exactPrims, frexp_exponent], ?_⟩
  intro x hx
  have h : (exactPrims exp log2 fin).frexp x = Int.log 2 |x| + 1 := by
    simp [exactPrims, frexp_exponent, hx]
  exact (frexp_bounds_iff x hx _).mpr h

/-- C18 (amended): with `frexp` meeting its library contract, for an input whose infinity-norm
`v` is positive and whose computed `log2_val = log2(v)` (the value the library returns, rounded
or not) is non-zero, there is exactly one integer `e` with `2^(e-1) ≤ |log2_val| < 2^e`, and
the selected scale exponent is `max(0, e + 1)`, which equals
`max(0, ⌊log2 |log2_val|⌋ + 2)`. -/
theorem C18_scale_exponent_of_computed_log2 (P : Prims ℝ) (hP : FrexpContract P) (N : Nat)
    (A0 : Matrix (Fin N) (Fin N) ℝ) (hv : 0 < norm_inf A0)
    (hl : P.log2 (norm_inf A0) ≠ 0) :
    ∃ e : Int,
      ((2 : ℝ) ^ (e - 1) ≤ |P.log2 (norm_inf A0)| ∧ |P.log2 (norm_inf A0)| < (2 : ℝ) ^ e) ∧
      (∀ e' : Int, ((2 : ℝ) ^ (e' - 1) ≤ |P.log2 (norm_inf A0)| ∧
        |P.log2 (norm_inf A0)| < (2 : ℝ) ^ e') → e' = e) ∧
      scale_of P A0 = Int.toNat (max 0 (e + 1)) ∧
      scale_of P A0 = Int.toNat (max 0 (⌊Real.logb 2 |P.log2 (norm_inf A0)|⌋ + 2)) := by
  refine ⟨Int.log 2 |P.log2 (norm_inf A0)| + 1, ?_, ?_, ?_, ?_⟩
  · exact (frexp_bounds_iff _ hl _).mpr rfl
  · intro e' he'
    exact (frexp_bounds_iff _ hl _).mp he'
  · rw [scale_of, frexpContract_scale_exponent P hP _ hv]
    simp [frexp_exponent, hl]
  · rw [scale_of, frexpContract_scale_exponent P hP _ hv]
    have hf := Real.floor_logb_natCast (b := 2) (abs_nonneg (P.log2 (norm_inf A0)))
    simp only [Nat.cast_ofNat] at hf
    rw [hf]
    simp only [frexp_exponent, hl, if_false]
    congr 2
    ring

theorem logb_two_one_sub_gt (n : Nat) (a : ℝ) (ha0 : 0 < a) (ha1 : a < 1)
    (hn : (n : ℝ) * a < 1 / 2) : -1 < (n : ℝ) * Real.logb 2 (1 - a) := by
  have hb : (1 : ℝ) + (n : ℝ) * (-a) ≤ (1 + -a) ^ n := one_add_mul_le_pow (by linarith) n
  have e2 : (1 + -a : ℝ) = 1 - a := by ring
  rw [e2] at hb
  have h12 : (1 / 2 : ℝ) < (1 - a) ^ n := by
    have : (1 / 2 : ℝ) < 1 + (n : ℝ) * (-a) := by linarith
    exact lt_of_lt_of_le this hb
  have hlog := Real.logb_lt_logb (b := 2) (by norm_num) (by norm_num : (0 : ℝ) < 1 / 2) h12
  rw [Real.logb_pow] at hlog
  have hhalf : Real.logb 2 (1 / 2 : ℝ) = -1 := by
    rw [one_div, Real.logb_inv, Real.logb_self_eq_one (by norm_num)]
  rw [hhalf] at hlog
  exact hlog

theorem logb_two_near_one :
    -(1 / 2 ^ 51 : ℝ) < Real.logb 2 (1 - 1 / 2 ^ 53) ∧ Real.logb 2 (1 - 1 / 2 ^ 53) < 0 := by
  have hpos : (0 : ℝ) < 1 - 1 / 2 ^ 53 := by norm_num
  have hlt : (1 - 1 / 2 ^ 53 : ℝ) < 1 := by norm_num
  refine ⟨?_, Real.logb_neg (by norm_num) hpos hlt⟩
  have h := logb_two_one_sub_gt (2 ^ 51) (1 / 2 ^ 53) (by positivity) (by norm_num)
    (by norm_num)
  have hc : ((2 ^ 51 : Nat) : ℝ) = 2 ^ 51 := by norm_num
  rw [hc] at h
  have h51 : (0 : ℝ) < 2 ^ 51 := by positivity
  have e : -(1 / 2 ^ 51 : ℝ) = -1 / 2 ^ 51 := by ring
  rw [e, div_lt_iff₀ h51]
  linarith

theorem logb_two_below_256 :
    (8 : ℝ) - 1 / 2 ^ 51 < Real.logb 2 (256 - 1 / 2 ^ 45) ∧
      Real.logb 2 (256 - 1 / 2 ^ 45) < 8 := by
  have hv : (256 - 1 / 2 ^ 45 : ℝ) = 2 ^ 8 * (1 - 1 / 2 ^ 53) := by norm_num
  have h8 : Real.logb 2 ((2 : ℝ) ^ 8) = 8 := by
    rw [Real.logb_pow, Real.logb_self_eq_one (by norm_num)]
    norm_num
  rw [hv, Real.logb_mul (by positivity) (by norm_num), h8]
  obtain ⟨h1, h2⟩ := logb_two_near_one
  constructor <;> linarith

theorem round_double_near_eight (x : ℝ) (h1 : (8 : ℝ) - 1 / 2 ^ 51 < x) (h2 : x < 8) :
    round_double x = 8 := by
  have hx0 : x ≠ 0 := by
    have : (0 : ℝ) < 8 - 1 / 2 ^ 51 := by norm_num
    linarith
  have hxpos : 0 < x := by
    have : (0 : ℝ) < 8 - 1 / 2 ^ 51 := by norm_num
    linarith
  have habs : |x| = x := abs_of_pos hxpos
  have h4 : (4 : ℝ) ≤ x := by
    have : (4 : ℝ) ≤ 8 - 1 / 2 ^ 51 := by norm_num
    linarith
  have hlog : Int.log 2 |x| = 2 := by
    have hb : ((2 : ℝ) ^ ((3 : Int) - 1) ≤ |x| ∧ |x| < (2 : ℝ) ^ (3 : Int)) := by
      rw [habs]
      constructor
      · norm_num
        exact h4
      · norm_num
        exact h2
    have := (frexp_bounds_iff x hx0 3).mp hb
    omega
  have hp : (2 : ℝ) ^ ((2 : Int) - 52) = 1 / 2 ^ 50 := by
    rw [show ((2 : Int) - 52) = -50 by norm_num, zpow_neg, one_div]
    norm_num
  have hr : round (x / (1 / 2 ^ 50)) = (2 ^ 53 : Int) := by
    rw [round_eq, Int.floor_eq_iff]
    have e : x / (1 / 2 ^ 50) = x * 2 ^ 50 := by field_simp
    rw [e]
    constructor
    · push_cast
      nlinarith
    · push_cast
      nlinarith
  simp only [round_double, hx0, if_false, hlog, hp, hr]
  push_cast
  norm_num

theorem roundedPrims_scale_below_256 :
    scale_of roundedPrims (Matrix.diagonal (fun _ : Fin 1 => (256 - 1 / 2 ^ 45 : ℝ))) = 5 := by
  have hv : (0 : ℝ) < 256 - 1 / 2 ^ 45 := by norm_num
  have hlog2 : roundedPrims.log2 (256 - 1 / 2 ^ 45 : ℝ) = 8 :=
    round_double_near_eight _ logb_two_below_256.1 logb_two_below_256.2
  rw [scale_of, norm_inf_one_by_one _ hv.le,
    frexpContract_scale_exponent roundedPrims (exactPrims_frexpContract _ _ _) _ hv, hlog2]
  have h8 : Int.log 2 |(8 : ℝ)| = 3 := by
    have hb : ((2 : ℝ) ^ ((4 : Int) - 1) ≤ |(8 : ℝ)| ∧ |(8 : ℝ)| < (2 : ℝ) ^ (4 : Int)) := by
      rw [abs_of_pos (by norm_num)]
      constructor <;> norm_num
    have := (frexp_bounds_iff 8 (by norm_num) 4).mp hb
    omega
  have hf : frexp_exponent (8 : ℝ) = 4 := by
    rw [frexp_exponent, if_neg (by norm_num), h8]
    norm_num
  rw [hf]
  decide

/-- Counterexample to C18 as stated: for the 1×1 input `[[256 - 2^-45]]` the norm `v` is
positive, `log2 v ≠ 0`, and the unique integer `e` with `2^(e-1) ≤ |log2 v| < 2^e` is 3, so the
stated formula gives `max(0, 3 + 1) = 4`; but `log2 v` rounds to the double `8`, whose `frexp`
exponent is 4, and the selected scale exponent is 5. -/
theorem C18_counterexample :
    0 < norm_inf (Matrix.diagonal (fun _ : Fin 1 => (256 - 1 / 2 ^ 45 : ℝ))) ∧
      Real.logb 2 (norm_inf (Matrix.diagonal (fun _ : Fin 1 => (256 - 1 / 2 ^ 45 : ℝ)))) ≠ 0 ∧
      ((2 : ℝ) ^ ((3 : Int) - 1)
          ≤ |Real.logb 2 (norm_inf (Matrix.diagonal (fun _ : Fin 1 => (256 - 1 / 2 ^ 45 : ℝ))))| ∧
        |Real.logb 2 (norm_inf (Matrix.diagonal (fun _ : Fin 1 => (256 - 1 / 2 ^ 45 : ℝ))))|
          < (2 : ℝ) ^ (3 : Int)) ∧
      Int.toNat (max 0 ((3 : Int) + 1)) = 4 ∧
      scale_of roundedPrims (Matrix.diagonal (fun _ : Fin 1 => (256 - 1 / 2 ^ 45 : ℝ))) = 5 := by
  have hv : (0 : ℝ) < 256 - 1 / 2 ^ 45 := by norm_num
  obtain ⟨h1, h2⟩ := logb_two_below_256
  have hpos : (0 : ℝ) < Real.logb 2 (256 - 1 / 2 ^ 45) := by
    have : (0 : ℝ) < 8 - 1 / 2 ^ 51 := by norm_num
    linarith
  rw [norm_inf_one_by_one _ hv.le]
  have e4 : (2 : ℝ) ^ ((3 : Int) - 1) = 4 := by norm_num
  have e8 : (2 : ℝ) ^ (3 : Int) = 8 := by norm_num
  refine ⟨hv, hpos.ne', ⟨?_, ?_⟩, by decide, roundedPrims_scale_below_256⟩
  · rw [abs_of_pos hpos, e4]
    have : (4 : ℝ) ≤ 8 - 1 / 2 ^ 51 := by norm_num
    linarith
  · rw [abs_of_pos hpos, e8]
    exact h2

/-- Witness for C18 (amended): the same input with `log2` rounded to a double. -/
theorem C18_scale_exponent_of_computed_log2_witness :
    FrexpContract roundedPrims ∧
      0 < norm_inf (Matrix.diagonal (fun _ : Fin 1 => (256 - 1 / 2 ^ 45 : ℝ))) ∧
      roundedPrims.log2 (norm_inf (Matrix.diagonal (fun _ : Fin 1 => (256 - 1 / 2 ^ 45 : ℝ))))
        ≠ 0 ∧
      ∃ e : Int, scale_of roundedPrims (Matrix.diagonal (fun _ : Fin 1 => (256 - 1 / 2 ^ 45 : ℝ)))
        = Int.toNat (max 0 (e + 1)) := by
  have hv : (0 : ℝ) < 256 - 1 / 2 ^ 45 := by norm_num
  have hn : norm_inf (Matrix.diagonal (fun _ : Fin 1 => (256 - 1 / 2 ^ 45 : ℝ)))
      = 256 - 1 / 2 ^ 45 := norm_inf_one_by_one _ hv.le
  have hv' : 0 < norm_inf (Matrix.diagonal (fun _ : Fin 1 => (256 - 1 / 2 ^ 45 : ℝ))) := by
    rw [hn]
    exact hv
  have hl : roundedPrims.log2
      (norm_inf (Matrix.diagonal (fun _ : Fin 1 => (256 - 1 / 2 ^ 45 : ℝ)))) ≠ 0 := by
    rw [hn]
    have h8 : roundedPrims.log2 (256 - 1 / 2 ^ 45 : ℝ) = 8 :=
      round_double_near_eight _ logb_two_below_256.1 logb_two_below_256.2
    rw [h8]
    norm_num
  obtain ⟨e, -, -, he, -⟩ := C18_scale_exponent_of_computed_log2 roundedPrims
    (exactPrims_frexpContract _ _ _) 1 _ hv' hl
  exact ⟨exactPrims_frexpContract _ _ _, hv', hl, e, he⟩

end Expmat
